import Mathlib

/-!
Verification of the saashard SQL tokenizer (src/sqlparser/lex.go).

The tokenizer is embedded shallowly: the Go `Tokenizer` struct becomes a Lean
structure over a `List Nat` of input bytes, each Go method becomes a Lean
function on that structure, and the one panic site (`Tokenizer.Next` on EOF)
is modelled by threading `Option`, with `none` standing for the panic.
Byte values are naturals; the end-of-input sentinel EOFCHAR is 0x100 = 256,
exactly as in the source.
-/

namespace Saashard

/-- EOFCHAR: the end-of-input sentinel pseudo-character, 0x100. -/
def EOFCHAR : Nat := 256

/-- Token kinds: the closed set of token type codes returned by Scan.
In the Go source these are yacc-generated distinct ints; single-character
operator tokens use the character code itself (constructor `op`), and each
keyword spelling maps to its own distinct reserved-word kind (constructor
`keyword` indexed by the lower-cased spelling, mirroring the injective
`keywords` map). -/
inductive TokKind where
  | eof
  | lexError
  | id
  | strLit
  | number
  | valueArg
  | comment
  | ne
  | le
  | ge
  | nullSafeEqual
  | op (c : Nat)
  | keyword (s : List Nat)
  deriving DecidableEq, Repr

/-- The Tokenizer state, from the Go struct: `InStream` becomes the list of
not-yet-read input bytes, `lastChar` the one-character lookahead (a byte or
EOFCHAR, 0 meaning "not started"), `Position` the read counter, plus the
`AllowComments` / `ForceEOF` flags, the `errorToken` diagnostic field and the
`posVarIndex` counter for anonymous placeholders.  The purely diagnostic
`LastError` string and the `ParseTree` output slot play no role in scanning
and are not modelled. -/
structure Tokenizer where
  input : List Nat
  allowComments : Bool
  forceEOF : Bool
  lastChar : Nat
  position : Nat
  errorToken : List Nat
  posVarIndex : Nat
  deriving DecidableEq, Repr

/-- NewStringTokenizer: fresh state over the given bytes; all the other
fields take Go's zero values. -/
def NewStringTokenizer (b : List Nat) : Tokenizer :=
  { input := b, allowComments := false, forceEOF := false, lastChar := 0,
    position := 0, errorToken := [], posVarIndex := 0 }

/-- Bytes of an ASCII Lean string, for writing concrete inputs. -/
def bytesOf (s : String) : List Nat := s.data.map Char.toNat

/-- `next`: the unchecked advance.  Reading a byte loads it into `lastChar`
and consumes it; at end of input `lastChar` becomes EOFCHAR.  `Position` is
incremented on every call, also when the read fails (as in the source, where
`Position++` runs after the `ReadByte` error check). -/
def Tokenizer.next (t : Tokenizer) : Tokenizer :=
  match t.input with
  | [] => { t with lastChar := EOFCHAR, position := t.position + 1 }
  | c :: rest => { t with input := rest, lastChar := c, position := t.position + 1 }

/-- isLetter from the source: a-z, A-Z, underscore (95) or at-sign (64). -/
def isLetter (ch : Nat) : Bool :=
  (97 ≤ ch && ch ≤ 122) || (65 ≤ ch && ch ≤ 90) || ch == 95 || ch == 64

/-- digitVal from the source: value of a decimal or hex digit character,
or 16 (larger than any legal digit value) for anything else. -/
def digitVal (ch : Nat) : Nat :=
  if 48 ≤ ch ∧ ch ≤ 57 then ch - 48
  else if 97 ≤ ch ∧ ch ≤ 102 then ch - 97 + 10
  else if 65 ≤ ch ∧ ch ≤ 70 then ch - 65 + 10
  else 16

/-- isDigit from the source: 0-9. -/
def isDigit (ch : Nat) : Bool := 48 ≤ ch && ch ≤ 57

/-- Termination measure for the scanning loops: twice the unread length,
plus one while the lookahead is not yet the EOF sentinel.  Every `next`
with a non-EOF lookahead strictly decreases it. -/
def meas (t : Tokenizer) : Nat :=
  2 * t.input.length + (if t.lastChar = EOFCHAR then 0 else 1)

theorem next_nil (t : Tokenizer) (h : t.input = []) :
    t.next = { t with lastChar := EOFCHAR, position := t.position + 1 } := by
  unfold Tokenizer.next; rw [h]

theorem next_cons (t : Tokenizer) (c : Nat) (rest : List Nat) (h : t.input = c :: rest) :
    t.next = { t with input := rest, lastChar := c, position := t.position + 1 } := by
  unfold Tokenizer.next; rw [h]

theorem meas_next_le (t : Tokenizer) : meas t.next ≤ meas t := by
  unfold Tokenizer.next
  rcases hi : t.input with _ | ⟨c, rest⟩
  · simp only [meas, hi]
    simp
  · simp only [meas, hi]
    by_cases hcc : c = EOFCHAR <;> by_cases hc : t.lastChar = EOFCHAR <;>
      simp [hcc, hc] <;> omega

theorem meas_next_lt (t : Tokenizer) (h : t.lastChar ≠ EOFCHAR) :
    meas t.next < meas t := by
  unfold Tokenizer.next
  rcases hi : t.input with _ | ⟨c, rest⟩
  · simp only [meas, hi]
    simp [h]
  · simp only [meas, hi]
    by_cases hcc : c = EOFCHAR <;> simp [hcc, h] <;> omega

/-- skipBlank: consume spaces, newlines, carriage returns and tabs. -/
def skipBlank (t : Tokenizer) : Tokenizer :=
  if t.lastChar = 32 ∨ t.lastChar = 10 ∨ t.lastChar = 13 ∨ t.lastChar = 9 then
    skipBlank t.next
  else t
  termination_by meas t
  decreasing_by
    apply meas_next_lt
    unfold EOFCHAR
    omega

/-- ASCII lower-casing of a byte sequence, the effect of bytes.ToLower on
identifier text (identifier bytes are all ASCII, by isLetter/isDigit). -/
def toLowerBytes (l : List Nat) : List Nat :=
  l.map (fun c => if 65 ≤ c ∧ c ≤ 90 then c + 32 else c)

/-- The reserved-word spellings of the keywords map, in source order. -/
def keywordSpellings : List String :=
  ["select", "insert", "update", "delete", "from", "where", "group", "having",
   "order", "by", "limit", "for",
   "union", "all", "minus", "except", "intersect",
   "join", "full", "straight_join", "left", "right", "inner", "outer",
   "cross", "natural", "use", "force", "on", "into",
   "distinct", "case", "when", "then", "else", "end", "as", "and", "or",
   "not", "exists", "in", "is", "like", "between", "null", "asc", "desc",
   "values", "duplicate", "key", "default", "set", "lock",
   "create", "alter", "rename", "drop", "table", "index", "view", "to",
   "ignore", "if", "unique", "using",
   "begin", "rollback", "commit",
   "names", "replace", "start", "transaction", "isolation", "level",
   "repeatable", "read", "committed", "uncommitted", "serializable",
   "collate", "offset", "charset", "character", "collation", "show",
   "describe", "explain",
   "variables", "status", "databases", "database", "tables", "columns",
   "procedure", "function", "engines", "storage", "plugins", "processlist",
   "indexes", "keys", "triggers", "trigger", "slave",
   "session", "global",
   "armscii8", "ascii", "big5", "binary", "cp1250", "cp1251", "cp1256",
   "cp1257", "cp850", "cp852", "cp866", "cp932", "dec8", "eucjpms", "euckr",
   "gb2312", "gbk", "geostd8", "greek", "hebrew", "hp8", "keybcs2", "koi8r",
   "koi8u", "latin1", "latin2", "latin5", "latin7", "macce", "macroman",
   "sjis", "swe7", "tis620", "ucs2", "ujis", "utf16", "utf16le", "utf32",
   "utf8", "utf8mb4",
   "admin", "help"]

/-- The keywords map, as the set of its keys (each key maps to its own
distinct reserved-word token kind, `TokKind.keyword key`). -/
def keywords : List (List Nat) := keywordSpellings.map bytesOf

/-- The accumulation loop of scanIdentifier: consume letters and digits. -/
def identLoop (t : Tokenizer) (buf : List Nat) : List Nat × Tokenizer :=
  if isLetter t.lastChar || isDigit t.lastChar then
    identLoop t.next (buf ++ [t.lastChar % 256])
  else (buf, t)
  termination_by meas t
  decreasing_by
    apply meas_next_lt
    rename_i h
    rw [Bool.or_eq_true] at h
    unfold isLetter isDigit at h
    unfold EOFCHAR
    rcases h with h | h <;> simp at h <;> omega

/-- scanIdentifier: consume the leading letter and the following
letters/digits, then probe the keywords map with the lower-cased text:
a hit returns that keyword's kind together with the lower-cased text,
a miss returns ID with the original-case text. -/
def scanIdentifier (t : Tokenizer) : TokKind × List Nat × Tokenizer :=
  let r := identLoop t.next [t.lastChar % 256]
  let lowered := toLowerBytes r.1
  if lowered ∈ keywords then (.keyword lowered, lowered, r.2)
  else (.id, r.1, r.2)

/-- The accumulation loop of scanBindVar: consume letters, digits and dots. -/
def bindLoop (t : Tokenizer) (buf : List Nat) : List Nat × Tokenizer :=
  if isLetter t.lastChar || isDigit t.lastChar || t.lastChar == 46 then
    bindLoop t.next (buf ++ [t.lastChar % 256])
  else (buf, t)
  termination_by meas t
  decreasing_by
    apply meas_next_lt
    rename_i h
    rw [Bool.or_eq_true, Bool.or_eq_true] at h
    unfold isLetter isDigit at h
    unfold EOFCHAR
    rcases h with (h | h) | h <;> simp at h <;> omega

/-- scanBindVar: consume the leading colon and following letters, digits and
dots; a buffer of length one (the bare colon) is a lexical error, anything
longer is a VALUE_ARG bind-variable token. -/
def scanBindVar (t : Tokenizer) : TokKind × List Nat × Tokenizer :=
  let r := bindLoop t.next [t.lastChar % 256]
  if r.1.length = 1 then (.lexError, r.1, r.2)
  else (.valueArg, r.1, r.2)

/-- scanMantissa: repeatedly append the lookahead and advance while its
digit value is below the base.  The advance is the buffered `Next`, whose
EOF panic is modelled by the `none` branch: reaching it with an EOF
lookahead would be the fatal precondition violation. -/
def scanMantissa (base : Nat) (t : Tokenizer) (buf : List Nat) :
    Option (List Nat × Tokenizer) :=
  if digitVal t.lastChar < base then
    if t.lastChar = EOFCHAR then none
    else scanMantissa base t.next (buf ++ [t.lastChar % 256])
  else some (buf, t)
  termination_by meas t
  decreasing_by
    apply meas_next_lt
    assumption

/-- The exponent tail of scanNumber (the code after the exponent label):
an optional e/E, optional sign, then a decimal mantissa.  Buffered
advances again surface the modelled panic as `none`. -/
def numExponent (t : Tokenizer) (buf : List Nat) :
    Option (List Nat × Tokenizer) :=
  if t.lastChar = 101 ∨ t.lastChar = 69 then
    if t.lastChar = EOFCHAR then none
    else
      let buf1 := buf ++ [t.lastChar % 256]
      let t1 := t.next
      if t1.lastChar = 43 ∨ t1.lastChar = 45 then
        if t1.lastChar = EOFCHAR then none
        else scanMantissa 10 t1.next (buf1 ++ [t1.lastChar % 256])
      else scanMantissa 10 t1 buf1
  else some (buf, t)

/-- The fraction tail of scanNumber (the code after the fraction label):
an optional dot plus decimal mantissa, then the exponent tail. -/
def numFraction (t : Tokenizer) (buf : List Nat) :
    Option (List Nat × Tokenizer) :=
  if t.lastChar = 46 then
    if t.lastChar = EOFCHAR then none
    else
      match scanMantissa 10 t.next (buf ++ [t.lastChar % 256]) with
      | none => none
      | some (b, t') => numExponent t' b
  else numExponent t buf

/-- scanNumber: the numeric-literal scanner.  With a decimal point already
seen it scans mantissa and exponent only; otherwise a leading 0 selects the
hex path (0x/0X plus hex mantissa) or the octal path, where a trailing 8/9
digit run marks an illegal octal that is an error unless a dot or exponent
promotes the literal to a float; all legal paths return NUMBER with the
exact consumed text. -/
def scanNumber (seenDecimalPoint : Bool) (t : Tokenizer) :
    Option (TokKind × List Nat × Tokenizer) :=
  if seenDecimalPoint then
    match scanMantissa 10 t [46] with
    | none => none
    | some (b, t1) =>
      match numExponent t1 b with
      | none => none
      | some (b2, t2) => some (.number, b2, t2)
  else
    if t.lastChar = 48 then
      if t.lastChar = EOFCHAR then none
      else
        let buf1 : List Nat := [t.lastChar % 256]
        let t1 := t.next
        if t1.lastChar = 120 ∨ t1.lastChar = 88 then
          if t1.lastChar = EOFCHAR then none
          else
            match scanMantissa 16 t1.next (buf1 ++ [t1.lastChar % 256]) with
            | none => none
            | some (b2, t2) => some (.number, b2, t2)
        else
          match scanMantissa 8 t1 buf1 with
          | none => none
          | some (b2, t2) =>
            if t2.lastChar = 56 ∨ t2.lastChar = 57 then
              match scanMantissa 10 t2 b2 with
              | none => none
              | some (b3, t3) =>
                if t3.lastChar = 46 ∨ t3.lastChar = 101 ∨ t3.lastChar = 69 then
                  match numFraction t3 b3 with
                  | none => none
                  | some (b4, t4) => some (.number, b4, t4)
                else some (.lexError, b3, t3)
            else
              if t2.lastChar = 46 ∨ t2.lastChar = 101 ∨ t2.lastChar = 69 then
                match numFraction t2 b2 with
                | none => none
                | some (b4, t4) => some (.number, b4, t4)
              else some (.number, b2, t2)
    else
      match scanMantissa 10 t [] with
      | none => none
      | some (b, t1) =>
        match numFraction t1 b with
        | none => none
        | some (b2, t2) => some (.number, b2, t2)

/-- DONTESCAPE: the sentinel decode-map entry marking a character that a
backslash does not escape (it passes through unchanged). -/
def DONTESCAPE : Nat := 255

/-- Modelled from the spec: the sqltypes backslash-escape decode table of
the string scanner is not part of the sources at hand; the spec describes
it as a fixed escape-code table (newline for n, tab for t, backslash for
backslash, and the other standard SQL escapes: NUL for 0, backspace for b,
carriage return for r, ctrl-Z for Z, and the two quote characters mapping
to themselves) with a pass-through DONTESCAPE default for every other
character. -/
def SQLDecodeMap (c : Nat) : Nat :=
  if c = 48 then 0
  else if c = 39 then 39
  else if c = 34 then 34
  else if c = 98 then 8
  else if c = 110 then 10
  else if c = 114 then 13
  else if c = 116 then 9
  else if c = 90 then 26
  else if c = 92 then 92
  else DONTESCAPE

/-- scanString: the quoted string/identifier scanner, entered after the
opening delimiter has been consumed.  A doubled delimiter embeds one
literal delimiter; a backslash decodes the following character through
SQLDecodeMap with pass-through for DONTESCAPE entries; reaching end of
input before the closing delimiter (also right after a backslash) is a
lexical error.  The token kind for the normal exit is the caller's typ.
The delimiter is a real character, never the EOF sentinel (hd). -/
def scanString (delim : Nat) (hd : delim ≠ EOFCHAR) (typ : TokKind)
    (t : Tokenizer) (buf : List Nat) : TokKind × List Nat × Tokenizer :=
  if t.lastChar = delim then
    if t.next.lastChar = delim then
      scanString delim hd typ t.next.next (buf ++ [t.lastChar % 256])
    else (typ, buf, t.next)
  else if t.lastChar = 92 then
    if t.next.lastChar = EOFCHAR then (.lexError, buf, t.next)
    else if SQLDecodeMap (t.next.lastChar % 256) = DONTESCAPE then
      scanString delim hd typ t.next.next (buf ++ [t.next.lastChar % 256])
    else
      scanString delim hd typ t.next.next
        (buf ++ [SQLDecodeMap (t.next.lastChar % 256) % 256])
  else if t.lastChar = EOFCHAR then (.lexError, buf, t.next)
  else scanString delim hd typ t.next (buf ++ [t.lastChar % 256])
  termination_by meas t
  decreasing_by
  all_goals
    first
      | exact lt_of_le_of_lt (meas_next_le _)
          (meas_next_lt t (by simp_all [EOFCHAR]))
      | exact meas_next_lt t (by simp_all [EOFCHAR])

/-- scanCommentType1: line comments.  Called after the two prefix
characters were consumed; the prefix bytes seed the buffer, then input is
consumed through the newline (inclusive) or to end of input.  The buffered
advance's EOF panic is the `none` branch; both advances here sit behind an
EOF guard. -/
def commentLoop1 (t : Tokenizer) (buf : List Nat) :
    Option (TokKind × List Nat × Tokenizer) :=
  if t.lastChar ≠ EOFCHAR then
    if t.lastChar = 10 then
      if t.lastChar = EOFCHAR then none
      else some (.comment, buf ++ [t.lastChar % 256], t.next)
    else
      if t.lastChar = EOFCHAR then none
      else commentLoop1 t.next (buf ++ [t.lastChar % 256])
  else some (.comment, buf, t)
  termination_by meas t
  decreasing_by
    apply meas_next_lt
    assumption

/-- scanCommentType1 proper: seeds the buffer with the literal prefix. -/
def scanCommentType1 (pfx : List Nat) (t : Tokenizer) :
    Option (TokKind × List Nat × Tokenizer) :=
  commentLoop1 t pfx

/-- scanCommentType2: block comments.  Called with the opening slash-star
already consumed and seeded into the buffer; scans for the star-slash
terminator, and reaching end of input first is a lexical error.  Buffered
advances again model the EOF panic as `none`. -/
def commentLoop2 (t : Tokenizer) (buf : List Nat) :
    Option (TokKind × List Nat × Tokenizer) :=
  if t.lastChar = 42 then
    if t.lastChar = EOFCHAR then none
    else
      let b1 := buf ++ [t.lastChar % 256]
      let t1 := t.next
      if t1.lastChar = 47 then
        if t1.lastChar = EOFCHAR then none
        else some (.comment, b1 ++ [t1.lastChar % 256], t1.next)
      else commentLoop2 t1 b1
  else if t.lastChar = EOFCHAR then some (.lexError, buf, t)
  else
    if t.lastChar = EOFCHAR then none
    else commentLoop2 t.next (buf ++ [t.lastChar % 256])
  termination_by meas t
  decreasing_by
  · apply meas_next_lt
    simp_all
  · apply meas_next_lt
    assumption

/-- scanCommentType2 proper: seeds the buffer with the slash-star prefix. -/
def scanCommentType2 (t : Tokenizer) : Option (TokKind × List Nat × Tokenizer) :=
  commentLoop2 t (bytesOf "/*")

/-- The synthesized name of the n-th anonymous placeholder: the bytes of
":v" followed by the decimal digits of n, the output of the source's
format of ":v%d". -/
def vName (n : Nat) : List Nat := bytesOf (":v" ++ toString n)

/-- Scan: one step of the tokenizer, returning the next raw token's kind
and text together with the successor state (`none` is the modelled panic
of a buffered advance past end of input, never actually reached).
The dispatch follows the source: respect ForceEOF; do the initial read
while lastChar is still 0; skip blanks; then dispatch on the lookahead —
letters to the identifier scanner, digits to the number scanner, colon to
the bind-variable scanner, and everything else is consumed and switched on:
EOF sentinel, self-delimiting operators, the anonymous placeholder, dot
(possibly a float), the comment introducers, the multi-character
comparison operators, bang, the three quote characters, and finally the
single-byte lexical error fallback. -/
def scanDispatch (t1 : Tokenizer) : Option (TokKind × List Nat × Tokenizer) :=
  if isLetter t1.lastChar then some (scanIdentifier t1)
    else if isDigit t1.lastChar then scanNumber false t1
    else if t1.lastChar = 58 then some (scanBindVar t1)
    else
      let ch := t1.lastChar
      let t2 := t1.next
      if ch = EOFCHAR then some (.eof, [], t2)
      else if ch = 61 ∨ ch = 44 ∨ ch = 59 ∨ ch = 40 ∨ ch = 41 ∨ ch = 43 ∨
              ch = 42 ∨ ch = 37 ∨ ch = 38 ∨ ch = 124 ∨ ch = 94 ∨ ch = 126 then
        some (.op ch, [], t2)
      else if ch = 63 then
        some (.valueArg, vName (t2.posVarIndex + 1),
          { t2 with posVarIndex := t2.posVarIndex + 1 })
      else if ch = 46 then
        if isDigit t2.lastChar then scanNumber true t2
        else some (.op 46, [], t2)
      else if ch = 47 then
        if t2.lastChar = 47 then scanCommentType1 (bytesOf "//") t2.next
        else if t2.lastChar = 42 then scanCommentType2 t2.next
        else some (.op 47, [], t2)
      else if ch = 45 then
        if t2.lastChar = 45 then scanCommentType1 (bytesOf "--") t2.next
        else some (.op 45, [], t2)
      else if ch = 60 then
        if t2.lastChar = 62 then some (.ne, [], t2.next)
        else if t2.lastChar = 61 then
          if t2.next.lastChar = 62 then some (.nullSafeEqual, [], t2.next.next)
          else some (.le, [], t2.next)
        else some (.op 60, [], t2)
      else if ch = 62 then
        if t2.lastChar = 61 then some (.ge, [], t2.next)
        else some (.op 62, [], t2)
      else if ch = 33 then
        if t2.lastChar = 61 then some (.ne, [], t2.next)
        else some (.lexError, bytesOf "!", t2)
      else if ch = 39 then some (scanString 39 (by decide) .strLit t2 [])
      else if ch = 34 then some (scanString 34 (by decide) .strLit t2 [])
      else if ch = 96 then some (scanString 96 (by decide) .id t2 [])
      else some (.lexError, [ch % 256], t2)

/-- Scan: one pull step.  Respect ForceEOF, do the initial read while
lastChar is still 0, skip blanks, then run the dispatch above. -/
def Scan (t : Tokenizer) : Option (TokKind × List Nat × Tokenizer) :=
  if t.forceEOF then some (.eof, [], t)
  else scanDispatch (skipBlank (if t.lastChar = 0 then t.next else t))

/-- Position plus unread length.  Each advance increments position and
removes at most one unread byte, so pot never decreases; its monotonicity
says position advances by at least the number of characters consumed. -/
def pot (t : Tokenizer) : Nat := t.position + t.input.length

/-- The state facts every advance preserves: the measure and the unread
length never grow, position and pot never shrink, and the two
configuration flags are untouched. -/
def Pres0 (t u : Tokenizer) : Prop :=
  meas u ≤ meas t ∧ t.position ≤ u.position ∧ pot t ≤ pot u ∧
  u.input.length ≤ t.input.length ∧ u.forceEOF = t.forceEOF ∧
  u.allowComments = t.allowComments

/-- Pres0 plus preservation of the placeholder counter, which every
sub-scanner other than the anonymous-placeholder branch satisfies. -/
def Pres (t u : Tokenizer) : Prop := Pres0 t u ∧ u.posVarIndex = t.posVarIndex

theorem Pres0.ofEq {t u : Tokenizer} (h : u = t) : Pres0 t u := by
  subst h; unfold Pres0
  exact ⟨le_rfl, le_rfl, le_rfl, le_rfl, rfl, rfl⟩

theorem Pres0.comp {a b c : Tokenizer} (h1 : Pres0 a b) (h2 : Pres0 b c) :
    Pres0 a c := by
  unfold Pres0 at *
  exact ⟨h2.1.trans h1.1, h1.2.1.trans h2.2.1, h1.2.2.1.trans h2.2.2.1,
    h2.2.2.2.1.trans h1.2.2.2.1, h2.2.2.2.2.1.trans h1.2.2.2.2.1,
    h2.2.2.2.2.2.trans h1.2.2.2.2.2⟩

theorem Pres.of_eq {t u : Tokenizer} (h : u = t) : Pres t u := by
  subst h; exact ⟨Pres0.ofEq rfl, rfl⟩

theorem Pres.trans {a b c : Tokenizer} (h1 : Pres a b) (h2 : Pres b c) :
    Pres a c :=
  ⟨Pres0.comp h1.1 h2.1, h2.2.trans h1.2⟩

theorem pres0_next (t : Tokenizer) : Pres0 t t.next := by
  refine ⟨meas_next_le t, ?_⟩
  unfold Tokenizer.next pot
  rcases hi : t.input with _ | ⟨c, rest⟩ <;> simp [hi] <;> omega

theorem pres_next (t : Tokenizer) : Pres t t.next := by
  refine ⟨pres0_next t, ?_⟩
  unfold Tokenizer.next
  rcases hi : t.input with _ | ⟨c, rest⟩ <;> simp

theorem pres_skipBlank (t : Tokenizer) : Pres t (skipBlank t) := by
  induction t using skipBlank.induct with
  | _ =>
    rw [skipBlank]
    split <;>
      first
        | exact Pres.trans (pres_next _) (by assumption)
        | exact Pres.of_eq rfl
        | simp_all

theorem pres_identLoop (t : Tokenizer) (buf : List Nat) :
    Pres t (identLoop t buf).2 := by
  induction t, buf using identLoop.induct with
  | _ =>
    rw [identLoop]
    split <;>
      first
        | exact Pres.trans (pres_next _) (by assumption)
        | exact Pres.of_eq rfl
        | simp_all

theorem pres_bindLoop (t : Tokenizer) (buf : List Nat) :
    Pres t (bindLoop t buf).2 := by
  induction t, buf using bindLoop.induct with
  | _ =>
    rw [bindLoop]
    split <;>
      first
        | exact Pres.trans (pres_next _) (by assumption)
        | exact Pres.of_eq rfl
        | simp_all

theorem pres_scanIdentifier (t : Tokenizer) :
    Pres t (scanIdentifier t).2.2 := by
  unfold scanIdentifier
  dsimp only
  split <;> exact Pres.trans (pres_next t) (pres_identLoop _ _)

theorem pres_scanBindVar (t : Tokenizer) :
    Pres t (scanBindVar t).2.2 := by
  unfold scanBindVar
  dsimp only
  split <;> exact Pres.trans (pres_next t) (pres_bindLoop _ _)

theorem pres_scanMantissa (base : Nat) (t : Tokenizer) (buf : List Nat) :
    ∀ b u, scanMantissa base t buf = some (b, u) → Pres t u := by
  induction t, buf using scanMantissa.induct base with
  | _ =>
    intro b u h
    rw [scanMantissa] at h
    repeat' split at h
    all_goals
      first
        | exact Option.noConfusion h
        | (simp only [Option.some.injEq, Prod.mk.injEq] at h
           exact Pres.of_eq h.2.symm)
        | exact Pres.trans (pres_next _) (by solve_by_elim)

theorem pres_numExponent (t : Tokenizer) (buf : List Nat) :
    ∀ b u, numExponent t buf = some (b, u) → Pres t u := by
  intro b u h
  unfold numExponent at h
  dsimp only at h
  repeat' split at h
  all_goals
    first
      | exact Option.noConfusion h
      | (simp only [Option.some.injEq, Prod.mk.injEq] at h
         exact Pres.of_eq h.2.symm)
      | exact Pres.trans (pres_next _)
          (Pres.trans (pres_next _) (pres_scanMantissa _ _ _ _ _ h))
      | exact Pres.trans (pres_next _) (pres_scanMantissa _ _ _ _ _ h)

theorem pres_numFraction (t : Tokenizer) (buf : List Nat) :
    ∀ b u, numFraction t buf = some (b, u) → Pres t u := by
  intro b u h
  unfold numFraction at h
  try dsimp only at h
  repeat' split at h
  all_goals
    first
      | exact Option.noConfusion h
      | exact pres_numExponent _ _ _ _ h
      | (rename_i b1 t1 heq
         exact Pres.trans (pres_next _)
           (Pres.trans (pres_scanMantissa _ _ _ _ _ heq)
             (pres_numExponent _ _ _ _ h)))

theorem Pres.here (t : Tokenizer) : Pres t t := Pres.of_eq rfl

theorem Pres.step_next {t u : Tokenizer} (h : Pres t.next u) : Pres t u :=
  (pres_next t).trans h

theorem Pres.step_mant {base : Nat} {t u u' : Tokenizer} {buf b : List Nat}
    (heq : scanMantissa base t buf = some (b, u')) (h : Pres u' u) : Pres t u :=
  (pres_scanMantissa base t buf b u' heq).trans h

theorem Pres.step_exp {t u u' : Tokenizer} {buf b : List Nat}
    (heq : numExponent t buf = some (b, u')) (h : Pres u' u) : Pres t u :=
  (pres_numExponent t buf b u' heq).trans h

theorem Pres.step_frac {t u u' : Tokenizer} {buf b : List Nat}
    (heq : numFraction t buf = some (b, u')) (h : Pres u' u) : Pres t u :=
  (pres_numFraction t buf b u' heq).trans h

theorem pres_scanNumber (sdp : Bool) (t : Tokenizer) :
    ∀ k v u, scanNumber sdp t = some (k, v, u) → Pres t u := by
  intro k v u h
  unfold scanNumber at h
  try dsimp only at h
  repeat' split at h
  all_goals
    first
      | exact Option.noConfusion h
      | (simp only [Option.some.injEq, Prod.mk.injEq] at h
         obtain ⟨h1, h2, h3⟩ := h
         subst h3
         first
           | solve_by_elim [Pres.step_next, Pres.step_mant, Pres.step_exp,
               Pres.step_frac, Pres.here]
           | exact Pres.step_next (Pres.step_mant (by assumption)
               (Pres.step_mant (by assumption)
                 (Pres.step_frac (by assumption) (Pres.here _))))
           | exact Pres.step_next (Pres.step_mant (by assumption)
               (Pres.step_mant (by assumption) (Pres.here _)))
           | exact Pres.step_next (Pres.step_mant (by assumption)
               (Pres.step_frac (by assumption) (Pres.here _))))

theorem pres_scanString (delim : Nat) (hd : delim ≠ EOFCHAR) (typ : TokKind)
    (t : Tokenizer) (buf : List Nat) :
    Pres t (scanString delim hd typ t buf).2.2 := by
  induction t, buf using scanString.induct delim hd typ with
  | _ =>
    rw [scanString]
    repeat' split
    all_goals
      first
        | exact Pres.trans (pres_next _) (Pres.trans (pres_next _) (by assumption))
        | exact Pres.trans (pres_next _) (by assumption)
        | exact pres_next _
        | simp_all

theorem pres_commentLoop1 (t : Tokenizer) (buf : List Nat) :
    ∀ k v u, commentLoop1 t buf = some (k, v, u) → Pres t u := by
  induction t, buf using commentLoop1.induct with
  | _ =>
    intro k v u h
    rw [commentLoop1] at h
    repeat' split at h
    all_goals
      first
        | exact Option.noConfusion h
        | (simp only [Option.some.injEq, Prod.mk.injEq] at h
           obtain ⟨h1, h2, h3⟩ := h
           subst h3
           first
             | exact pres_next _
             | exact Pres.of_eq rfl)
        | exact Pres.trans (pres_next _) (by solve_by_elim)

theorem pres_commentLoop2 (t : Tokenizer) (buf : List Nat) :
    ∀ k v u, commentLoop2 t buf = some (k, v, u) → Pres t u := by
  induction t, buf using commentLoop2.induct with
  | _ =>
    intro k v u h
    rw [commentLoop2] at h
    dsimp only at h
    repeat' split at h
    all_goals
      first
        | exact Option.noConfusion h
        | (simp only [Option.some.injEq, Prod.mk.injEq] at h
           obtain ⟨h1, h2, h3⟩ := h
           subst h3
           first
             | exact Pres.trans (pres_next _) (pres_next _)
             | exact pres_next _
             | exact Pres.of_eq rfl)
        | exact Pres.trans (pres_next _) (by solve_by_elim)

theorem Pres.meas_le {t u : Tokenizer} (h : Pres t u) : meas u ≤ meas t := h.1.1

theorem Pres.posVar {t u : Tokenizer} (h : Pres t u) :
    u.posVarIndex = t.posVarIndex := h.2

theorem isLetter_ne_eof (ch : Nat) (h : isLetter ch = true) : ch ≠ EOFCHAR := by
  unfold isLetter at h
  simp at h
  unfold EOFCHAR
  omega

theorem isDigit_ne_eof (ch : Nat) (h : isDigit ch = true) : ch ≠ EOFCHAR := by
  unfold isDigit at h
  simp at h
  unfold EOFCHAR
  omega

theorem digitVal_lt_ten (ch : Nat) (h : isDigit ch = true) : digitVal ch < 10 := by
  unfold isDigit at h
  simp at h
  unfold digitVal
  split <;> omega

theorem pres0_posVarSet (u : Tokenizer) (n : Nat) :
    Pres0 u { u with posVarIndex := n } := by
  unfold Pres0 meas pot
  simp

theorem meas_posVarSet (u : Tokenizer) (n : Nat) :
    meas { u with posVarIndex := n } = meas u := by
  unfold meas
  simp

theorem pres_next_scanIdentifier (t : Tokenizer) :
    Pres t.next (scanIdentifier t).2.2 := by
  unfold scanIdentifier
  dsimp only
  split <;> exact pres_identLoop _ _

theorem pres_next_scanBindVar (t : Tokenizer) :
    Pres t.next (scanBindVar t).2.2 := by
  unfold scanBindVar
  dsimp only
  split <;> exact pres_bindLoop _ _

theorem scanMantissa_cons (base : Nat) (t : Tokenizer) (buf : List Nat)
    (h1 : digitVal t.lastChar < base) (h2 : t.lastChar ≠ EOFCHAR) :
    scanMantissa base t buf = scanMantissa base t.next (buf ++ [t.lastChar % 256]) := by
  rw [scanMantissa]
  simp [h1, h2]

/-- On a digit lookahead, scanNumber's first action consumes that digit, so
its final state already relates to the state one advance in. -/
theorem scanNumber_digit_pres (t : Tokenizer) (hdig : isDigit t.lastChar = true) :
    ∀ k v u, scanNumber false t = some (k, v, u) → Pres t.next u := by
  intro k v u h
  have hne : t.lastChar ≠ EOFCHAR := isDigit_ne_eof _ hdig
  have hlt : digitVal t.lastChar < 10 := digitVal_lt_ten _ hdig
  unfold scanNumber at h
  try dsimp only at h
  rw [scanMantissa_cons 10 t [] hlt hne] at h
  repeat' split at h
  all_goals
    first
      | exact Option.noConfusion h
      | (simp only [Option.some.injEq, Prod.mk.injEq] at h
         obtain ⟨h1, h2, h3⟩ := h
         subst h3
         first
           | solve_by_elim [Pres.step_next, Pres.step_mant, Pres.step_exp,
               Pres.step_frac, Pres.here]
           | exact Pres.step_next (Pres.step_mant (by assumption)
               (Pres.step_mant (by assumption)
                 (Pres.step_frac (by assumption) (Pres.here _))))
           | exact Pres.step_next (Pres.step_mant (by assumption)
               (Pres.step_mant (by assumption) (Pres.here _)))
           | exact Pres.step_next (Pres.step_mant (by assumption)
               (Pres.step_frac (by assumption) (Pres.here _)))
           | exact Pres.step_mant (by assumption)
               (Pres.step_mant (by assumption)
                 (Pres.step_frac (by assumption) (Pres.here _)))
           | exact Pres.step_mant (by assumption)
               (Pres.step_mant (by assumption) (Pres.here _))
           | exact Pres.step_mant (by assumption)
               (Pres.step_frac (by assumption) (Pres.here _)))
      | simp_all

/-- The master step lemma for Scan: every successful Scan step preserves the
flags, never decreases position or pot, never grows the unread input or the
measure; the measure strictly decreases unless the step returned the
end-of-input token; and the placeholder counter is unchanged except in the
anonymous-placeholder branch, which increments it by one and returns exactly
the VALUE_ARG token named after the new counter value. -/
theorem scan_pres (t : Tokenizer) (k : TokKind) (v : List Nat) (t' : Tokenizer)
    (h : Scan t = some (k, v, t')) :
    Pres0 t t' ∧ (k ≠ TokKind.eof → meas t' < meas t) ∧
    (t'.posVarIndex = t.posVarIndex ∨
      (t'.posVarIndex = t.posVarIndex + 1 ∧ k = TokKind.valueArg ∧
       v = vName (t.posVarIndex + 1))) := by
  unfold Scan at h
  by_cases hf : t.forceEOF = true
  · rw [if_pos hf] at h
    simp only [Option.some.injEq, Prod.mk.injEq] at h
    obtain ⟨hk, _, ht⟩ := h
    subst ht
    exact ⟨Pres0.ofEq rfl, fun hne => absurd hk.symm hne, Or.inl rfl⟩
  · rw [if_neg hf] at h
    set s := skipBlank (if t.lastChar = 0 then t.next else t) with hs
    unfold scanDispatch at h
    dsimp only at h
    have hps : Pres t s := by
      rw [hs]
      split
      · exact (pres_next t).trans (pres_skipBlank _)
      · exact pres_skipBlank _
    by_cases hl : isLetter s.lastChar = true
    · rw [if_pos hl] at h
      simp only [Option.some.injEq] at h
      have ht : (scanIdentifier s).2.2 = t' := by rw [h]
      subst ht
      have h2 : Pres s.next (scanIdentifier s).2.2 := pres_next_scanIdentifier s
      refine ⟨(hps.trans (pres_scanIdentifier s)).1, fun _ => ?_,
        Or.inl (hps.trans (pres_scanIdentifier s)).posVar⟩
      exact lt_of_le_of_lt h2.meas_le
        (lt_of_lt_of_le (meas_next_lt s (isLetter_ne_eof _ hl)) hps.meas_le)
    · rw [if_neg hl] at h
      by_cases hd : isDigit s.lastChar = true
      · rw [if_pos hd] at h
        have h2 := scanNumber_digit_pres s hd k v t' h
        refine ⟨(hps.trans (pres_scanNumber false s k v t' h)).1, fun _ => ?_,
          Or.inl (hps.trans (pres_scanNumber false s k v t' h)).posVar⟩
        exact lt_of_le_of_lt h2.meas_le
          (lt_of_lt_of_le (meas_next_lt s (isDigit_ne_eof _ hd)) hps.meas_le)
      · rw [if_neg hd] at h
        by_cases hc : s.lastChar = 58
        · rw [if_pos hc] at h
          simp only [Option.some.injEq] at h
          have ht : (scanBindVar s).2.2 = t' := by rw [h]
          subst ht
          have h2 : Pres s.next (scanBindVar s).2.2 := pres_next_scanBindVar s
          refine ⟨(hps.trans (pres_scanBindVar s)).1, fun _ => ?_,
            Or.inl (hps.trans (pres_scanBindVar s)).posVar⟩
          refine lt_of_le_of_lt h2.meas_le
            (lt_of_lt_of_le (meas_next_lt s ?_) hps.meas_le)
          rw [hc]; decide
        · rw [if_neg hc] at h
          by_cases he : s.lastChar = EOFCHAR
          · rw [if_pos he] at h
            simp only [Option.some.injEq, Prod.mk.injEq] at h
            obtain ⟨hk, _, ht⟩ := h
            subst ht
            exact ⟨(hps.trans (pres_next s)).1,
              fun hne => absurd hk.symm hne,
              Or.inl (hps.trans (pres_next s)).posVar⟩
          · rw [if_neg he] at h
            have hlt1 : meas s.next < meas t :=
              lt_of_lt_of_le (meas_next_lt s he) hps.meas_le
            have hP1 : Pres t s.next := hps.trans (pres_next s)
            by_cases hop : s.lastChar = 61 ∨ s.lastChar = 44 ∨ s.lastChar = 59 ∨
                s.lastChar = 40 ∨ s.lastChar = 41 ∨ s.lastChar = 43 ∨
                s.lastChar = 42 ∨ s.lastChar = 37 ∨ s.lastChar = 38 ∨
                s.lastChar = 124 ∨ s.lastChar = 94 ∨ s.lastChar = 126
            · rw [if_pos hop] at h
              simp only [Option.some.injEq, Prod.mk.injEq] at h
              obtain ⟨hk, _, ht⟩ := h
              subst ht
              exact ⟨hP1.1, fun _ => hlt1, Or.inl hP1.posVar⟩
            · rw [if_neg hop] at h
              by_cases hq : s.lastChar = 63
              · rw [if_pos hq] at h
                simp only [Option.some.injEq, Prod.mk.injEq] at h
                obtain ⟨hk, hv, ht⟩ := h
                subst ht
                refine ⟨Pres0.comp hP1.1 (pres0_posVarSet s.next _), fun _ => ?_,
                  Or.inr ⟨?_, hk.symm, ?_⟩⟩
                · rw [meas_posVarSet]; exact hlt1
                · simp only [hP1.posVar]
                · rw [← hv, hP1.posVar]
              · rw [if_neg hq] at h
                by_cases hdot : s.lastChar = 46
                · rw [if_pos hdot] at h
                  by_cases hd2 : isDigit s.next.lastChar = true
                  · rw [if_pos hd2] at h
                    have h2 := pres_scanNumber true s.next k v t' h
                    exact ⟨(hP1.trans h2).1,
                      fun _ => lt_of_le_of_lt h2.meas_le hlt1,
                      Or.inl (hP1.trans h2).posVar⟩
                  · rw [if_neg hd2] at h
                    simp only [Option.some.injEq, Prod.mk.injEq] at h
                    obtain ⟨hk, _, ht⟩ := h
                    subst ht
                    exact ⟨hP1.1, fun _ => hlt1, Or.inl hP1.posVar⟩
                · rw [if_neg hdot] at h
                  by_cases hsl : s.lastChar = 47
                  · rw [if_pos hsl] at h
                    by_cases hsl2 : s.next.lastChar = 47
                    · rw [if_pos hsl2] at h
                      unfold scanCommentType1 at h
                      have h2 := pres_commentLoop1 s.next.next _ k v t' h
                      exact ⟨(hP1.trans ((pres_next _).trans h2)).1,
                        fun _ => lt_of_le_of_lt
                          (((pres_next _).trans h2).meas_le) hlt1,
                        Or.inl (hP1.trans ((pres_next _).trans h2)).posVar⟩
                    · rw [if_neg hsl2] at h
                      by_cases hst : s.next.lastChar = 42
                      · rw [if_pos hst] at h
                        unfold scanCommentType2 at h
                        have h2 := pres_commentLoop2 s.next.next _ k v t' h
                        exact ⟨(hP1.trans ((pres_next _).trans h2)).1,
                          fun _ => lt_of_le_of_lt
                            (((pres_next _).trans h2).meas_le) hlt1,
                          Or.inl (hP1.trans ((pres_next _).trans h2)).posVar⟩
                      · rw [if_neg hst] at h
                        simp only [Option.some.injEq, Prod.mk.injEq] at h
                        obtain ⟨hk, _, ht⟩ := h
                        subst ht
                        exact ⟨hP1.1, fun _ => hlt1, Or.inl hP1.posVar⟩
                  · rw [if_neg hsl] at h
                    by_cases hmn : s.lastChar = 45
                    · rw [if_pos hmn] at h
                      by_cases hmn2 : s.next.lastChar = 45
                      · rw [if_pos hmn2] at h
                        unfold scanCommentType1 at h
                        have h2 := pres_commentLoop1 s.next.next _ k v t' h
                        exact ⟨(hP1.trans ((pres_next _).trans h2)).1,
                          fun _ => lt_of_le_of_lt
                            (((pres_next _).trans h2).meas_le) hlt1,
                          Or.inl (hP1.trans ((pres_next _).trans h2)).posVar⟩
                      · rw [if_neg hmn2] at h
                        simp only [Option.some.injEq, Prod.mk.injEq] at h
                        obtain ⟨hk, _, ht⟩ := h
                        subst ht
                        exact ⟨hP1.1, fun _ => hlt1, Or.inl hP1.posVar⟩
                    · rw [if_neg hmn] at h
                      by_cases hlt : s.lastChar = 60
                      · rw [if_pos hlt] at h
                        by_cases hgt2 : s.next.lastChar = 62
                        · rw [if_pos hgt2] at h
                          simp only [Option.some.injEq, Prod.mk.injEq] at h
                          obtain ⟨hk, _, ht⟩ := h
                          subst ht
                          have h2 := hP1.trans (pres_next s.next)
                          exact ⟨h2.1,
                            fun _ => lt_of_le_of_lt (meas_next_le s.next) hlt1,
                            Or.inl h2.posVar⟩
                        · rw [if_neg hgt2] at h
                          by_cases heq2 : s.next.lastChar = 61
                          · rw [if_pos heq2] at h
                            by_cases hgt3 : s.next.next.lastChar = 62
                            · rw [if_pos hgt3] at h
                              simp only [Option.some.injEq, Prod.mk.injEq] at h
                              obtain ⟨hk, _, ht⟩ := h
                              subst ht
                              have h2 := hP1.trans
                                ((pres_next s.next).trans (pres_next s.next.next))
                              exact ⟨h2.1,
                                fun _ => lt_of_le_of_lt
                                  (le_trans (meas_next_le _) (meas_next_le _)) hlt1,
                                Or.inl h2.posVar⟩
                            · rw [if_neg hgt3] at h
                              simp only [Option.some.injEq, Prod.mk.injEq] at h
                              obtain ⟨hk, _, ht⟩ := h
                              subst ht
                              have h2 := hP1.trans (pres_next s.next)
                              exact ⟨h2.1,
                                fun _ => lt_of_le_of_lt (meas_next_le s.next) hlt1,
                                Or.inl h2.posVar⟩
                          · rw [if_neg heq2] at h
                            simp only [Option.some.injEq, Prod.mk.injEq] at h
                            obtain ⟨hk, _, ht⟩ := h
                            subst ht
                            exact ⟨hP1.1, fun _ => hlt1, Or.inl hP1.posVar⟩
                      · rw [if_neg hlt] at h
                        by_cases hgt : s.lastChar = 62
                        · rw [if_pos hgt] at h
                          by_cases heq2 : s.next.lastChar = 61
                          · rw [if_pos heq2] at h
                            simp only [Option.some.injEq, Prod.mk.injEq] at h
                            obtain ⟨hk, _, ht⟩ := h
                            subst ht
                            have h2 := hP1.trans (pres_next s.next)
                            exact ⟨h2.1,
                              fun _ => lt_of_le_of_lt (meas_next_le s.next) hlt1,
                              Or.inl h2.posVar⟩
                          · rw [if_neg heq2] at h
                            simp only [Option.some.injEq, Prod.mk.injEq] at h
                            obtain ⟨hk, _, ht⟩ := h
                            subst ht
                            exact ⟨hP1.1, fun _ => hlt1, Or.inl hP1.posVar⟩
                        · rw [if_neg hgt] at h
                          by_cases hbang : s.lastChar = 33
                          · rw [if_pos hbang] at h
                            by_cases heq2 : s.next.lastChar = 61
                            · rw [if_pos heq2] at h
                              simp only [Option.some.injEq, Prod.mk.injEq] at h
                              obtain ⟨hk, _, ht⟩ := h
                              subst ht
                              have h2 := hP1.trans (pres_next s.next)
                              exact ⟨h2.1,
                                fun _ => lt_of_le_of_lt (meas_next_le s.next) hlt1,
                                Or.inl h2.posVar⟩
                            · rw [if_neg heq2] at h
                              simp only [Option.some.injEq, Prod.mk.injEq] at h
                              obtain ⟨hk, _, ht⟩ := h
                              subst ht
                              exact ⟨hP1.1, fun _ => hlt1, Or.inl hP1.posVar⟩
                          · rw [if_neg hbang] at h
                            by_cases hq1 : s.lastChar = 39
                            · rw [if_pos hq1] at h
                              simp only [Option.some.injEq] at h
                              have ht : (scanString 39 (by decide) TokKind.strLit s.next []).2.2 = t' := by
                                rw [h]
                              subst ht
                              have h2 := pres_scanString 39 (by decide) .strLit s.next []
                              exact ⟨(hP1.trans h2).1,
                                fun _ => lt_of_le_of_lt h2.meas_le hlt1,
                                Or.inl (hP1.trans h2).posVar⟩
                            · rw [if_neg hq1] at h
                              by_cases hq2 : s.lastChar = 34
                              · rw [if_pos hq2] at h
                                simp only [Option.some.injEq] at h
                                have ht : (scanString 34 (by decide) TokKind.strLit s.next []).2.2 = t' := by
                                  rw [h]
                                subst ht
                                have h2 := pres_scanString 34 (by decide) .strLit s.next []
                                exact ⟨(hP1.trans h2).1,
                                  fun _ => lt_of_le_of_lt h2.meas_le hlt1,
                                  Or.inl (hP1.trans h2).posVar⟩
                              · rw [if_neg hq2] at h
                                by_cases hq3 : s.lastChar = 96
                                · rw [if_pos hq3] at h
                                  simp only [Option.some.injEq] at h
                                  have ht : (scanString 96 (by decide) TokKind.id s.next []).2.2 = t' := by
                                    rw [h]
                                  subst ht
                                  have h2 := pres_scanString 96 (by decide) .id s.next []
                                  exact ⟨(hP1.trans h2).1,
                                    fun _ => lt_of_le_of_lt h2.meas_le hlt1,
                                    Or.inl (hP1.trans h2).posVar⟩
                                · rw [if_neg hq3] at h
                                  simp only [Option.some.injEq, Prod.mk.injEq] at h
                                  obtain ⟨hk, _, ht⟩ := h
                                  subst ht
                                  exact ⟨hP1.1, fun _ => hlt1, Or.inl hP1.posVar⟩

/-- The comment-discarding loop of Lex: while the token is a comment and
AllowComments is false, rescan; the loop ends at the first non-comment
token, or immediately when comments are allowed. -/
def lexLoop (k : TokKind) (v : List Nat) (t : Tokenizer) :
    Option (TokKind × List Nat × Tokenizer) :=
  if k = TokKind.comment then
    if t.allowComments then some (k, v, t)
    else
      match hsc : Scan t with
      | none => none
      | some (k2, v2, t2) => lexLoop k2 v2 t2
  else some (k, v, t)
  termination_by meas t + (if k = TokKind.comment then 1 else 0)
  decreasing_by
    have hp := scan_pres t k2 v2 t2 hsc
    have hle : meas t2 ≤ meas t := hp.1.1
    by_cases hk2 : k2 = TokKind.comment
    · have hlt : meas t2 < meas t := hp.2.1 (by rw [hk2]; simp)
      simp_all
    · simp_all
      omega

/-- Lex: the pull interface used by the parser.  It scans, transparently
discards comment tokens while AllowComments is false, and records the
returned text in errorToken.  (The assignment of the text into the yacc
lval is the parser's side of the interface and has no state to model.) -/
def Lex (t : Tokenizer) : Option (TokKind × List Nat × Tokenizer) :=
  match Scan t with
  | none => none
  | some (k, v, t1) =>
    match lexLoop k v t1 with
    | none => none
    | some (k2, v2, t2) => some (k2, v2, { t2 with errorToken := v2 })

/-- The unconsumed character stream as the scanner sees it: the lookahead
followed by the unread input, empty once the lookahead is the sentinel. -/
def stream (t : Tokenizer) : List Nat :=
  if t.lastChar = EOFCHAR then [] else t.lastChar :: t.input

/-- Well-formedness: every unread input entry is a byte, and the lookahead
is a byte or the EOF sentinel (guaranteed in Go by the uint16-from-byte
loads; an invariant of every reachable state here). -/
def WFtok (t : Tokenizer) : Prop :=
  (∀ c ∈ t.input, c < 256) ∧ (t.lastChar = EOFCHAR ∨ t.lastChar < 256)

theorem WFtok_next {t : Tokenizer} (h : WFtok t) : WFtok t.next := by
  obtain ⟨hin, _⟩ := h
  unfold WFtok Tokenizer.next
  rcases hi : t.input with _ | ⟨c, rest⟩
  · simp
  · simp
    constructor
    · intro x hx; exact hin x (by rw [hi]; exact List.mem_cons_of_mem _ hx)
    · right; exact hin c (by rw [hi]; exact List.mem_cons_self _ _)

theorem stream_next {t : Tokenizer} (h : WFtok t) : stream t.next = t.input := by
  obtain ⟨hin, _⟩ := h
  unfold stream Tokenizer.next
  rcases hi : t.input with _ | ⟨c, rest⟩
  · simp
  · have : c < 256 := hin c (by rw [hi]; exact List.mem_cons_self _ _)
    simp
    intro hc
    rw [hc] at this
    unfold EOFCHAR at this
    omega

theorem stream_eof {t : Tokenizer} (h : stream t = []) : t.lastChar = EOFCHAR := by
  unfold stream at h
  by_cases hc : t.lastChar = EOFCHAR
  · exact hc
  · rw [if_neg hc] at h; exact absurd h (by simp)

theorem stream_cons {t : Tokenizer} {c : Nat} {r : List Nat}
    (h : stream t = c :: r) : t.lastChar = c ∧ t.input = r := by
  unfold stream at h
  by_cases hc : t.lastChar = EOFCHAR
  · rw [if_pos hc] at h; exact absurd h (by simp)
  · rw [if_neg hc] at h
    exact ⟨(List.cons.injEq _ _ _ _ ▸ h).1, (List.cons.injEq _ _ _ _ ▸ h).2⟩

theorem next_posVarIndex (t : Tokenizer) : t.next.posVarIndex = t.posVarIndex := by
  unfold Tokenizer.next
  rcases hi : t.input with _ | ⟨c, rest⟩ <;> simp

/-- The character classes Scan recognizes: letters, digits, colon, blanks,
the EOF sentinel, and the operator, punctuation, quote and
comment-introducing characters of the dispatch. -/
def handledChar (ch : Nat) : Bool :=
  isLetter ch || isDigit ch || ch == 58 ||
  ch == 32 || ch == 10 || ch == 13 || ch == 9 ||
  ch == 256 ||
  ch == 61 || ch == 44 || ch == 59 || ch == 40 || ch == 41 || ch == 43 ||
  ch == 42 || ch == 37 || ch == 38 || ch == 124 || ch == 94 || ch == 126 ||
  ch == 63 || ch == 46 || ch == 47 || ch == 45 || ch == 60 || ch == 62 ||
  ch == 33 || ch == 39 || ch == 34 || ch == 96

/-- Spec-side closure predicate for quoted constructs: scanning the given
stream (the characters after the opening delimiter), does a closing
delimiter occur before end of input?  A doubled delimiter embeds one
delimiter and continues; a backslash always escapes the character after
it; end of input first means unterminated. -/
def stringCloses (delim : Nat) : List Nat → Bool
  | [] => false
  | c :: rest =>
    if c = delim then
      match rest with
      | [] => true
      | d :: rest2 => if d = delim then stringCloses delim rest2 else true
    else if c = 92 then
      match rest with
      | [] => false
      | _ :: rest2 => stringCloses delim rest2
    else stringCloses delim rest

/-- Spec-side closure predicate for block comments: the stream (after the
opening slash-star) contains the star-slash terminator somewhere. -/
def hasCommentEnd : List Nat → Bool
  | [] => false
  | [_] => false
  | a :: b :: rest => (a == 42 && b == 47) || hasCommentEnd (b :: rest)

theorem digitVal_lt_imp_lt256 {c : Nat} (h : digitVal c < 16) : c < 256 := by
  unfold digitVal at h
  repeat' split at h
  all_goals omega

theorem not_isDigit_digitVal {c : Nat} (h : isDigit c = false) :
    ¬ digitVal c < 10 := by
  unfold isDigit at h
  simp at h
  unfold digitVal
  repeat' split
  all_goals omega

/-- The mantissa loop consumes exactly a maximal run of digits below the
base: on a stream that is a digit run followed by a non-digit boundary,
it returns the buffer extended by that run, positioned at the boundary. -/
theorem scanMantissa_run (base : Nat) (hb : base ≤ 16) :
    ∀ (ds : List Nat) (t : Tokenizer) (buf r : List Nat),
      WFtok t → stream t = ds ++ r →
      (∀ d ∈ ds, digitVal d < base) →
      (match r with | [] => True | c :: _ => ¬ digitVal c < base) →
      ∃ u, scanMantissa base t buf = some (buf ++ ds, u) ∧
        stream u = r ∧ WFtok u := by
  intro ds
  induction ds with
  | nil =>
    intro t buf r hWF hstream _ hr
    simp only [List.nil_append] at hstream
    refine ⟨t, ?_, hstream, hWF⟩
    rw [scanMantissa, if_neg ?_]
    · simp
    · cases hre : r with
      | nil =>
        rw [hre] at hstream
        rw [stream_eof hstream]
        simp [digitVal, EOFCHAR]
        omega
      | cons c cs =>
        rw [hre] at hstream
        rw [(stream_cons hstream).1]
        rw [hre] at hr
        exact hr
  | cons d ds ih =>
    intro t buf r hWF hstream hds hr
    have hl : stream t = d :: (ds ++ r) := by rw [hstream]; rfl
    obtain ⟨hlc, hin⟩ := stream_cons hl
    have hd : digitVal d < base := hds d (List.mem_cons_self _ _)
    have hdlt : d < 256 := digitVal_lt_imp_lt256 (lt_of_lt_of_le hd hb)
    have hne : t.lastChar ≠ EOFCHAR := by
      rw [hlc]; unfold EOFCHAR; omega
    rw [scanMantissa_cons base t buf (hlc ▸ hd) hne]
    have hWF' : WFtok t.next := WFtok_next hWF
    have hstream' : stream t.next = ds ++ r := by rw [stream_next hWF, hin]
    have hmod : t.lastChar % 256 = d := by rw [hlc]; exact Nat.mod_eq_of_lt hdlt
    rw [hmod]
    obtain ⟨u, hu, hsu, hwu⟩ := ih t.next (buf ++ [d]) r hWF' hstream'
      (fun x hx => hds x (List.mem_cons_of_mem _ hx)) hr
    refine ⟨u, ?_, hsu, hwu⟩
    rw [hu]
    simp

theorem digitVal_lt8_char {o : Nat} (h : digitVal o < 8) :
    48 ≤ o ∧ o ≤ 55 := by
  unfold digitVal at h
  repeat' split at h
  all_goals omega

/-- C4: numeric literal classification.  Concretely: 0x1A scans to NUMBER
0x1A (hex path); 012 scans to NUMBER 012 (octal-looking but legal); 089
scans to a lexical error; 3.14e-2 scans to a single NUMBER token spanning
the full text.  In general (last clause): a leading-zero literal whose
digit run contains an 8 or 9 and whose following character is not a dot or
exponent introducer is a lexical error carrying the whole consumed run. -/
theorem claim_c4_numeric_classification :
    ((Scan (NewStringTokenizer (bytesOf "0x1A"))).map (fun r => (r.1, r.2.1)) =
      some (TokKind.number, bytesOf "0x1A")) ∧
    ((Scan (NewStringTokenizer (bytesOf "012"))).map (fun r => (r.1, r.2.1)) =
      some (TokKind.number, bytesOf "012")) ∧
    ((Scan (NewStringTokenizer (bytesOf "089"))).map (fun r => (r.1, r.2.1)) =
      some (TokKind.lexError, bytesOf "089")) ∧
    ((Scan (NewStringTokenizer (bytesOf "3.14e-2"))).map (fun r => (r.1, r.2.1)) =
      some (TokKind.number, bytesOf "3.14e-2")) ∧
    (∀ (t : Tokenizer) (os : List Nat) (e : Nat) (ds2 r : List Nat),
      t.lastChar = 48 → WFtok t →
      t.input = os ++ e :: ds2 ++ r →
      (∀ d ∈ os, digitVal d < 8) → (e = 56 ∨ e = 57) →
      (∀ d ∈ ds2, isDigit d = true) →
      (match r with
       | [] => True
       | c :: _ => isDigit c = false ∧ ¬c = 46 ∧ ¬c = 101 ∧ ¬c = 69) →
      ∃ u, scanNumber false t =
        some (TokKind.lexError, 48 :: (os ++ e :: ds2), u)) := by
  refine ⟨?_, ?_, ?_, ?_, ?_⟩
  · simp [Scan, scanDispatch, NewStringTokenizer, skipBlank, Tokenizer.next,
      bytesOf, EOFCHAR, isLetter, isDigit, scanNumber, scanMantissa,
      numFraction, numExponent, digitVal]
  · simp [Scan, scanDispatch, NewStringTokenizer, skipBlank, Tokenizer.next,
      bytesOf, EOFCHAR, isLetter, isDigit, scanNumber, scanMantissa,
      numFraction, numExponent, digitVal]
  · simp [Scan, scanDispatch, NewStringTokenizer, skipBlank, Tokenizer.next,
      bytesOf, EOFCHAR, isLetter, isDigit, scanNumber, scanMantissa,
      numFraction, numExponent, digitVal]
  · simp [Scan, scanDispatch, NewStringTokenizer, skipBlank, Tokenizer.next,
      bytesOf, EOFCHAR, isLetter, isDigit, scanNumber, scanMantissa,
      numFraction, numExponent, digitVal]
  · intro t os e ds2 r h48 hWF hin hos he hds2 hr
    have hWF1 : WFtok t.next := WFtok_next hWF
    have hstream1 : stream t.next = os ++ (e :: (ds2 ++ r)) := by
      rw [stream_next hWF, hin]
      simp
    obtain ⟨u1, hm8, hs1, hw1⟩ := scanMantissa_run 8 (by omega) os t.next
      [48] (e :: (ds2 ++ r)) hWF1 hstream1 hos
      (by rcases he with he | he <;> simp [he, digitVal])
    have hu1lc : u1.lastChar = e := (stream_cons hs1).1
    have hds10 : ∀ d ∈ (e :: ds2), digitVal d < 10 := by
      intro d hd
      rcases List.mem_cons.mp hd with h | h
      · subst h
        rcases he with he | he <;> simp [he, digitVal]
      · exact digitVal_lt_ten d (hds2 d h)
    have hs1' : stream u1 = (e :: ds2) ++ r := by rw [hs1]; simp
    obtain ⟨u2, hm10, hs2, hw2⟩ := scanMantissa_run 10 (by omega) (e :: ds2)
      u1 ([48] ++ os) r hw1 hs1' hds10
      (by cases hre : r with
          | nil => trivial
          | cons c cs =>
            rw [hre] at hr
            exact not_isDigit_digitVal hr.1)
    have hrange : 48 ≤ t.next.lastChar ∧ t.next.lastChar ≤ 57 := by
      cases hos' : os with
      | nil =>
        rw [hos'] at hstream1
        have h1 := (stream_cons hstream1).1
        rcases he with he | he <;> omega
      | cons o os2 =>
        rw [hos'] at hstream1
        have hl : stream t.next = o :: (os2 ++ (e :: (ds2 ++ r))) := by
          rw [hstream1]; rfl
        have h1 := (stream_cons hl).1
        have hdo : digitVal o < 8 := hos o (by rw [hos']; exact List.mem_cons_self _ _)
        have h2 := digitVal_lt8_char hdo
        omega
    refine ⟨u2, ?_⟩
    unfold scanNumber
    dsimp only
    rw [if_neg (by simp), if_pos h48, if_neg (by rw [h48]; decide),
      if_neg (by omega), h48]
    have hmod48 : (48 : Nat) % 256 = 48 := rfl
    rw [hmod48, hm8]
    dsimp only
    rw [if_pos (by rw [hu1lc]; exact he), hm10]
    dsimp only
    rw [if_neg ?_]
    · simp
    · cases hre : r with
      | nil =>
        rw [hre] at hs2
        rw [stream_eof hs2]
        unfold EOFCHAR
        omega
      | cons c cs =>
        rw [hre] at hs2 hr
        rw [(stream_cons hs2).1]
        obtain ⟨_, h46, h101, h69⟩ := hr
        simp [h46, h101, h69]

/-- Witness for C4's general clause at the input 089 (as a mid-scan state
standing on the leading zero): the scanner returns the lexical error
carrying 089. -/
theorem claim_c4_numeric_classification_witness :
    ∃ u, scanNumber false ⟨[56, 57], false, false, 48, 1, [], 0⟩ =
      some (TokKind.lexError, [48, 56, 57], u) := by
  have h := claim_c4_numeric_classification.2.2.2.2
    ⟨[56, 57], false, false, 48, 1, [], 0⟩ [] 56 [57] []
    rfl (by constructor <;> decide) rfl (by simp) (by left; rfl)
    (by intro d hd; simp at hd; subst hd; decide) trivial
  simpa using h

/-- An unclosed quoted construct scans to a lexical error: whenever the
stream holds no closing delimiter (per the stringCloses predicate), the
string scanner's token kind is the lexical-error kind. -/
theorem scanString_unterminated (delim : Nat) (hd : delim ≠ EOFCHAR)
    (typ : TokKind) (t : Tokenizer) (buf : List Nat) :
    WFtok t → stringCloses delim (stream t) = false →
    (scanString delim hd typ t buf).1 = TokKind.lexError := by
  induction t, buf using scanString.induct delim hd typ with
  | case1 t buf h1 h2 ih =>
    intro hWF hnc
    rw [scanString, if_pos h1, if_pos h2]
    have hne : t.lastChar ≠ EOFCHAR := by rw [h1]; exact hd
    have hst : stream t = t.lastChar :: t.input := by
      unfold stream; rw [if_neg hne]
    rcases hin : t.input with _ | ⟨d, rest2⟩
    · exfalso
      rw [next_nil t hin] at h2
      simp at h2
      exact hd h2.symm
    · have hd2 : d = delim := by
        rw [next_cons t d rest2 hin] at h2
        exact h2
      apply ih
      · exact WFtok_next (WFtok_next hWF)
      · have hs2 : stream t.next.next = rest2 := by
          rw [stream_next (WFtok_next hWF), next_cons t d rest2 hin]
        rw [hs2]
        rw [hst, hin, h1, hd2] at hnc
        unfold stringCloses at hnc
        simpa using hnc
  | case2 t buf h1 h2 =>
    intro hWF hnc
    exfalso
    have hne : t.lastChar ≠ EOFCHAR := by rw [h1]; exact hd
    have hst : stream t = t.lastChar :: t.input := by
      unfold stream; rw [if_neg hne]
    rcases hin : t.input with _ | ⟨d, rest2⟩
    · rw [hst, hin, h1] at hnc
      unfold stringCloses at hnc
      simp at hnc
    · have hd2 : d ≠ delim := by
        rw [next_cons t d rest2 hin] at h2
        exact h2
      rw [hst, hin, h1] at hnc
      unfold stringCloses at hnc
      simp [hd2] at hnc
  | case3 t buf h1 h2 h3 =>
    intro _ _
    rw [scanString, if_neg h1, if_pos h2, if_pos h3]
  | case4 t buf h1 h2 h3 h4 ih =>
    intro hWF hnc
    have hne : t.lastChar ≠ EOFCHAR := by rw [h2]; decide
    have hst : stream t = t.lastChar :: t.input := by
      unfold stream; rw [if_neg hne]
    rcases hin : t.input with _ | ⟨d, rest2⟩
    · exfalso
      rw [next_nil t hin] at h3
      exact h3 rfl
    · rw [scanString, if_neg h1, if_pos h2, if_neg h3, if_pos h4]
      apply ih
      · exact WFtok_next (WFtok_next hWF)
      · have hs2 : stream t.next.next = rest2 := by
          rw [stream_next (WFtok_next hWF), next_cons t d rest2 hin]
        rw [hs2]
        rw [hst, hin, h2] at hnc
        unfold stringCloses at hnc
        simpa [show (92 : Nat) ≠ delim from fun hh => h1 (h2.trans hh)]
          using hnc
  | case5 t buf h1 h2 h3 h4 ih =>
    intro hWF hnc
    have hne : t.lastChar ≠ EOFCHAR := by rw [h2]; decide
    have hst : stream t = t.lastChar :: t.input := by
      unfold stream; rw [if_neg hne]
    rcases hin : t.input with _ | ⟨d, rest2⟩
    · exfalso
      rw [next_nil t hin] at h3
      exact h3 rfl
    · rw [scanString, if_neg h1, if_pos h2, if_neg h3, if_neg h4]
      apply ih
      · exact WFtok_next (WFtok_next hWF)
      · have hs2 : stream t.next.next = rest2 := by
          rw [stream_next (WFtok_next hWF), next_cons t d rest2 hin]
        rw [hs2]
        rw [hst, hin, h2] at hnc
        unfold stringCloses at hnc
        simpa [show (92 : Nat) ≠ delim from fun hh => h1 (h2.trans hh)]
          using hnc
  | case6 t buf h1 h2 h3 =>
    intro _ _
    rw [scanString, if_neg h1, if_neg h2, if_pos h3]
  | case7 t buf h1 h2 h3 ih =>
    intro hWF hnc
    rw [scanString, if_neg h1, if_neg h2, if_neg h3]
    have hst : stream t = t.lastChar :: t.input := by
      unfold stream; rw [if_neg h3]
    apply ih
    · exact WFtok_next hWF
    · rw [stream_next hWF]
      rw [hst] at hnc
      unfold stringCloses at hnc
      simpa [h1, h2] using hnc

/-- An unclosed block comment scans to a lexical error: whenever the stream
holds no star-slash terminator, the block-comment loop returns the
lexical-error kind. -/
theorem commentLoop2_unterminated (t : Tokenizer) (buf : List Nat) :
    WFtok t → hasCommentEnd (stream t) = false →
    (commentLoop2 t buf).map (fun r => r.1) = some TokKind.lexError := by
  induction t, buf using commentLoop2.induct with
  | case1 t buf h1 h2 =>
    intro _ _
    exfalso
    rw [h1] at h2
    exact absurd h2 (by decide)
  | case2 t buf h1 h2 t1 h3 h4 =>
    intro _ _
    exfalso
    have h3' : t.next.lastChar = 47 := h3
    have h4' : t.next.lastChar = EOFCHAR := h4
    rw [h3'] at h4'
    exact absurd h4' (by decide)
  | case3 t buf h1 h2 t1 h3 h4 =>
    intro hWF hnc
    exfalso
    have h3' : t.next.lastChar = 47 := h3
    have hst : stream t = t.lastChar :: t.input := by
      unfold stream; rw [if_neg h2]
    rcases hin : t.input with _ | ⟨d, rest2⟩
    · rw [next_nil t hin] at h3'
      simp at h3'
      exact absurd h3' (by decide)
    · have hd2 : d = 47 := by
        rw [next_cons t d rest2 hin] at h3'
        exact h3'
      rw [hst, hin, h1, hd2] at hnc
      unfold hasCommentEnd at hnc
      simp at hnc
  | case4 t buf h1 h2 b1 t1 h3 ih =>
    intro hWF hnc
    have h3' : ¬t.next.lastChar = 47 := h3
    rw [commentLoop2, if_pos h1, if_neg h2]
    try dsimp only
    rw [if_neg h3']
    have ih' : WFtok t.next →
        hasCommentEnd (stream t.next) = false →
        (commentLoop2 t.next (buf ++ [t.lastChar % 256])).map (fun r => r.1) =
          some TokKind.lexError := ih
    apply ih'
    · exact WFtok_next hWF
    · rw [stream_next hWF]
      have hst : stream t = t.lastChar :: t.input := by
        unfold stream; rw [if_neg h2]
      rcases hin : t.input with _ | ⟨d, rest2⟩
      · rfl
      · rw [hst, hin, h1] at hnc
        unfold hasCommentEnd at hnc
        simp at hnc
        exact hnc.2
  | case5 t buf h1 h2 =>
    intro _ _
    rw [commentLoop2, if_neg h1, if_pos h2]
    rfl
  | case6 t buf h1 h2 h3 =>
    intro _ _
    exact absurd h3 h2
  | case7 t buf h1 h2 h3 ih =>
    intro hWF hnc
    rw [commentLoop2, if_neg h1, if_neg h2]
    try dsimp only
    rw [if_neg h3]
    apply ih
    · exact WFtok_next hWF
    · rw [stream_next hWF]
      have hst : stream t = t.lastChar :: t.input := by
        unfold stream; rw [if_neg h2]
      rcases hin : t.input with _ | ⟨d, rest2⟩
      · rfl
      · rw [hst, hin] at hnc
        unfold hasCommentEnd at hnc
        simp at hnc
        exact hnc.2

/-- C5: unterminated constructs fail closed.  If the stream after an
opening quote, double quote or backtick never closes the delimiter, or the
stream after an opening slash-star never reaches star-slash, the Scan call
that opened the construct returns the lexical-error token kind — it
neither hangs (all scanners are total functions), nor panics (they return
some), nor returns a normal token.  The last two clauses check the spec's
concrete instances, an unclosed quote before abc and an unclosed block
comment before abc. -/
theorem claim_c5_unterminated_fail_closed :
    (∀ (t : Tokenizer), t.forceEOF = false → WFtok t →
       (t.lastChar = 39 ∨ t.lastChar = 34 ∨ t.lastChar = 96) →
       stringCloses t.lastChar (stream t.next) = false →
       (Scan t).map (fun r => r.1) = some TokKind.lexError) ∧
    (∀ (t : Tokenizer), t.forceEOF = false → WFtok t →
       t.lastChar = 47 → t.next.lastChar = 42 →
       hasCommentEnd (stream t.next.next) = false →
       (Scan t).map (fun r => r.1) = some TokKind.lexError) ∧
    ((Scan (NewStringTokenizer (bytesOf "'abc"))).map (fun r => r.1) =
      some TokKind.lexError) ∧
    ((Scan (NewStringTokenizer (bytesOf "/* abc"))).map (fun r => r.1) =
      some TokKind.lexError) := by
  refine ⟨?_, ?_, ?_, ?_⟩
  · intro t hf hWF hq hnc
    rcases hq with h | h | h <;>
      [(have hsb : skipBlank t = t := by
          rw [skipBlank, if_neg (by rw [h]; simp)]);
       (have hsb : skipBlank t = t := by
          rw [skipBlank, if_neg (by rw [h]; simp)]);
       (have hsb : skipBlank t = t := by
          rw [skipBlank, if_neg (by rw [h]; simp)])] <;>
      rw [h] at hnc <;>
      simp [Scan, scanDispatch, hf, h, hsb, EOFCHAR, isLetter, isDigit] <;>
      exact scanString_unterminated _ _ _ _ _ (WFtok_next hWF) hnc
  · intro t hf hWF h47 h42 hnc
    have hsb : skipBlank t = t := by
      rw [skipBlank, if_neg (by rw [h47]; simp)]
    have hcu := commentLoop2_unterminated t.next.next (bytesOf "/*")
      (WFtok_next (WFtok_next hWF)) hnc
    simp [Scan, scanDispatch, hf, h47, h42, hsb, EOFCHAR, isLetter, isDigit,
      scanCommentType2]
    rcases hr : commentLoop2 t.next.next (bytesOf "/*") with _ | ⟨⟨k1, v1, u1⟩⟩
    · rw [hr] at hcu
      exact Option.noConfusion hcu
    · rw [hr] at hcu
      simp at hcu
      exact ⟨v1, u1, by rw [hcu]⟩
  · simp [Scan, scanDispatch, NewStringTokenizer, skipBlank, scanString,
      SQLDecodeMap, DONTESCAPE, Tokenizer.next, bytesOf, EOFCHAR, isLetter,
      isDigit]
  · simp [Scan, scanDispatch, NewStringTokenizer, skipBlank,
      scanCommentType2, commentLoop2, Tokenizer.next, bytesOf, EOFCHAR,
      isLetter, isDigit]

/-- Witness for C5 at two concrete opened-construct states: an unclosed
single-quoted string over abc and an unclosed block comment over a space. -/
theorem claim_c5_unterminated_fail_closed_witness :
    ((Scan ⟨[97, 98, 99], false, false, 39, 1, [], 0⟩).map (fun r => r.1) =
      some TokKind.lexError) ∧
    ((Scan ⟨[42, 32], false, false, 47, 1, [], 0⟩).map (fun r => r.1) =
      some TokKind.lexError) := by
  constructor
  · exact claim_c5_unterminated_fail_closed.1
      ⟨[97, 98, 99], false, false, 39, 1, [], 0⟩
      rfl (by constructor <;> decide) (by left; rfl) (by decide)
  · exact claim_c5_unterminated_fail_closed.2.1
      ⟨[42, 32], false, false, 47, 1, [], 0⟩
      rfl (by constructor <;> decide) rfl (by decide) (by decide)

/-- Whenever comments are disallowed, the pull loop of Lex can only end on
a non-comment token: the loop exits either because the token is not a
comment or because AllowComments is set, and Scan preserves the flag. -/
theorem lexLoop_no_comment (k : TokKind) (v : List Nat) (t : Tokenizer) :
    t.allowComments = false →
    ∀ k2 v2 t2, lexLoop k v t = some (k2, v2, t2) → k2 ≠ TokKind.comment := by
  induction k, v, t using lexLoop.induct with
  | case1 v t h1 =>
    intro hac
    rw [hac] at h1
    exact absurd h1 (by simp)
  | case2 v t h1 hsc =>
    intro hac k2 v2 t2 h
    rw [lexLoop, if_pos rfl, if_neg h1] at h
    split at h
    · exact Option.noConfusion h
    · next k4 v4 t4 heq =>
      rw [hsc] at heq
      exact Option.noConfusion heq
  | case3 v t h1 k2 v2 t2 hsc ih =>
    intro hac k3 v3 t3 h
    rw [lexLoop, if_pos rfl, if_neg h1] at h
    split at h
    · next heq =>
      rw [hsc] at heq
      exact Option.noConfusion heq
    · next k4 v4 t4 heq =>
      rw [hsc] at heq
      simp only [Option.some.injEq, Prod.mk.injEq] at heq
      obtain ⟨hk, hv, ht⟩ := heq
      subst hk; subst hv; subst ht
      have hac2 : t2.allowComments = false :=
        (scan_pres t k2 v2 t2 hsc).1.2.2.2.2.2.trans hac
      exact ih hac2 k3 v3 t3 h
  | case4 k v t h1 =>
    intro hac k2 v2 t2 h
    rw [lexLoop, if_neg h1] at h
    simp only [Option.some.injEq, Prod.mk.injEq] at h
    rw [← h.1]
    exact h1

/-- Concrete evaluation of one Lex pull over a leading block comment with
AllowComments off: the comment token is discarded inside the loop and the
following number token is the one returned. -/
theorem lex_comment_number_eval :
    Lex ⟨bytesOf "/* x */ 1", false, false, 32, 7, bytesOf "select", 0⟩ =
    some (TokKind.number, [49], ⟨[], false, false, 256, 17, [49], 0⟩) := by
  have hs1 : Scan ⟨bytesOf "/* x */ 1", false, false, 32, 7, bytesOf "select", 0⟩ =
      some (TokKind.comment, bytesOf "/* x */",
        ⟨[49], false, false, 32, 15, bytesOf "select", 0⟩) := by
    simp [Scan, scanDispatch, skipBlank, scanCommentType2, commentLoop2,
      Tokenizer.next, bytesOf, EOFCHAR, isLetter, isDigit]
  have hs2 : Scan ⟨[49], false, false, 32, 15, bytesOf "select", 0⟩ =
      some (TokKind.number, [49],
        ⟨[], false, false, 256, 17, bytesOf "select", 0⟩) := by
    simp [Scan, scanDispatch, skipBlank, scanNumber, scanMantissa,
      numFraction, numExponent, Tokenizer.next, bytesOf, EOFCHAR,
      isLetter, isDigit, digitVal]
  have hll : lexLoop TokKind.comment (bytesOf "/* x */")
      ⟨[49], false, false, 32, 15, bytesOf "select", 0⟩ =
      some (TokKind.number, [49],
        ⟨[], false, false, 256, 17, bytesOf "select", 0⟩) := by
    rw [lexLoop, if_pos rfl, if_neg (by simp)]
    split
    · next heq =>
      rw [hs2] at heq
      exact Option.noConfusion heq
    · next k4 v4 t4 heq =>
      rw [hs2] at heq
      simp only [Option.some.injEq, Prod.mk.injEq] at heq
      obtain ⟨hk, hv, ht⟩ := heq
      subst hk; subst hv; subst ht
      rw [lexLoop, if_neg (by simp)]
  unfold Lex
  rw [hs1]
  dsimp only
  rw [hll]

/-- C9: comment suppression.  With AllowComments false, Lex never returns
a comment token on any input; on the concrete input SELECT, block comment
x, 1 it yields exactly the SELECT keyword, the number 1 and end-of-input.
With AllowComments true the comment token additionally appears between
them. -/
theorem claim_c9_comment_suppression :
    (∀ (t : Tokenizer) (k : TokKind) (v : List Nat) (u : Tokenizer),
       t.allowComments = false → Lex t = some (k, v, u) →
       k ≠ TokKind.comment) ∧
    ((Lex (NewStringTokenizer (bytesOf "SELECT /* x */ 1"))).map
      (fun r => (r.1, r.2.1)) =
      some (TokKind.keyword (bytesOf "select"), bytesOf "select")) ∧
    ((Lex ⟨bytesOf "/* x */ 1", false, false, 32, 7, bytesOf "select", 0⟩).map
      (fun r => (r.1, r.2.1)) = some (TokKind.number, [49])) ∧
    ((Lex ⟨[], false, false, 256, 17, [49], 0⟩).map
      (fun r => (r.1, r.2.1)) = some (TokKind.eof, [])) ∧
    ((Lex ⟨bytesOf "/* x */ 1", true, false, 32, 7, bytesOf "select", 0⟩).map
      (fun r => (r.1, r.2.1)) =
      some (TokKind.comment, bytesOf "/* x */")) ∧
    ((Lex ⟨[49], true, false, 32, 15, bytesOf "/* x */", 0⟩).map
      (fun r => (r.1, r.2.1)) = some (TokKind.number, [49])) := by
  refine ⟨?_, ?_, ?_, ?_, ?_, ?_⟩
  · intro t k v u hac h
    unfold Lex at h
    rcases hsc : Scan t with _ | ⟨⟨k1, v1, t1⟩⟩
    · rw [hsc] at h
      exact Option.noConfusion h
    · rw [hsc] at h
      dsimp only at h
      rcases hll : lexLoop k1 v1 t1 with _ | ⟨⟨k2, v2, t2⟩⟩
      · rw [hll] at h
        exact Option.noConfusion h
      · rw [hll] at h
        dsimp only at h
        simp only [Option.some.injEq, Prod.mk.injEq] at h
        rw [← h.1]
        have hac1 : t1.allowComments = false :=
          (scan_pres t k1 v1 t1 hsc).1.2.2.2.2.2.trans hac
        exact lexLoop_no_comment k1 v1 t1 hac1 k2 v2 t2 hll
  · simp +decide [Lex, lexLoop, Scan, scanDispatch, NewStringTokenizer,
      skipBlank, scanIdentifier, identLoop, toLowerBytes, Tokenizer.next,
      bytesOf, EOFCHAR, isLetter, isDigit]
  · rw [lex_comment_number_eval]
    rfl
  · simp [Lex, lexLoop, Scan, scanDispatch, skipBlank, Tokenizer.next,
      EOFCHAR, isLetter, isDigit]
  · simp [Lex, lexLoop, Scan, scanDispatch, skipBlank, scanCommentType2,
      commentLoop2, Tokenizer.next, bytesOf, EOFCHAR, isLetter, isDigit]
  · simp [Lex, lexLoop, Scan, scanDispatch, skipBlank, scanNumber,
      scanMantissa, numFraction, numExponent, Tokenizer.next, bytesOf,
      EOFCHAR, isLetter, isDigit, digitVal]

/-- Witness for C9's general clause: Lex on the comment-then-number input
(comments disallowed) returns NUMBER, which is indeed not a comment. -/
theorem claim_c9_comment_suppression_witness :
    TokKind.number ≠ TokKind.comment := by
  have hlex : Lex ⟨bytesOf "/* x */ 1", false, false, 32, 7, bytesOf "select", 0⟩ =
      some (TokKind.number, [49],
        ⟨[], false, false, 256, 17, [49], 0⟩) := lex_comment_number_eval
  exact claim_c9_comment_suppression.1
    ⟨bytesOf "/* x */ 1", false, false, 32, 7, bytesOf "select", 0⟩
    TokKind.number [49] ⟨[], false, false, 256, 17, [49], 0⟩ rfl hlex

/-- C10: a hex prefix with no following hex digit is not a lexical error:
when the scanner stands on a 0 whose successor lookahead is x or X and the
character after that has no hexadecimal digit value, Scan returns a NUMBER
token whose text is exactly the two bytes 0x (resp. 0X), leaving that
following character as the lookahead of the returned state. -/
theorem claim_c10_bare_hex_prefix (t : Tokenizer)
    (hf : t.forceEOF = false) (h0 : t.lastChar = 48)
    (hx : t.next.lastChar = 120 ∨ t.next.lastChar = 88)
    (hnd : 16 ≤ digitVal t.next.next.lastChar) :
    Scan t = some (TokKind.number, [48, t.next.lastChar], t.next.next) := by
  rcases hx with hx | hx
  · have hm : scanMantissa 16 t.next.next [48, 120] =
        some ([48, 120], t.next.next) := by
      rw [scanMantissa, if_neg (by omega)]
    simp [Scan, scanDispatch, hf, h0, hx, skipBlank, isLetter, isDigit, scanNumber,
      EOFCHAR, hm]
  · have hm : scanMantissa 16 t.next.next [48, 88] =
        some ([48, 88], t.next.next) := by
      rw [scanMantissa, if_neg (by omega)]
    simp [Scan, scanDispatch, hf, h0, hx, skipBlank, isLetter, isDigit, scanNumber,
      EOFCHAR, hm]

/-- Witness for C10 at the concrete state scanning the text 0xg: the call
returns NUMBER with text 0x and leaves g as the lookahead. -/
theorem claim_c10_bare_hex_prefix_witness :
    Scan ⟨[120, 103], false, false, 48, 1, [], 0⟩ =
      some (TokKind.number, [48, 120],
        ⟨[], false, false, 103, 3, [], 0⟩) := by
  have h := claim_c10_bare_hex_prefix ⟨[120, 103], false, false, 48, 1, [], 0⟩
    rfl rfl (by left; rfl) (by decide)
  simpa [Tokenizer.next] using h

/-- C3 as stated is refuted by the NUL byte: scanning the input a NUL b,
the NUL byte is not in any recognized class, yet the full scan returns
identifier a, identifier b and end-of-input, and no Scan call ever returns
a lexical-error token carrying the byte 0: the byte is silently dropped,
because a pending lookahead of 0 is indistinguishable from the tokenizer's
not-yet-started marker and triggers a fresh read at the start of the next
Scan call. -/
theorem claim_c3_counterexample :
    handledChar 0 = false ∧
    Scan (NewStringTokenizer [97, 0, 98]) =
      some (TokKind.id, [97], ⟨[98], false, false, 0, 2, [], 0⟩) ∧
    Scan ⟨[98], false, false, 0, 2, [], 0⟩ =
      some (TokKind.id, [98], ⟨[], false, false, 256, 4, [], 0⟩) ∧
    Scan ⟨[], false, false, 256, 4, [], 0⟩ =
      some (TokKind.eof, [], ⟨[], false, false, 256, 5, [], 0⟩) := by
  refine ⟨by decide, ?_, ?_, ?_⟩ <;>
    simp [Scan, scanDispatch, NewStringTokenizer, skipBlank, scanIdentifier, identLoop,
      toLowerBytes, Tokenizer.next, bytesOf, EOFCHAR, isLetter, isDigit,
      keywords, keywordSpellings]

/-- C3 amended: for every lookahead byte other than NUL that is in none of
the recognized classes, the Scan call dispatching on it returns the
lexical-error token kind carrying exactly that single byte (a NUL left as
pending lookahead is instead silently skipped, being the not-yet-started
marker). -/
theorem claim_c3_unrecognized_byte (t : Tokenizer) (ch : Nat)
    (hc : t.lastChar = ch) (h0 : ch ≠ 0) (hb : ch < 256)
    (hh : handledChar ch = false) (hf : t.forceEOF = false) :
    Scan t = some (TokKind.lexError, [ch], t.next) := by
  have hL : isLetter ch = false := by
    cases hiso : isLetter ch
    · rfl
    · exact absurd hh (by unfold handledChar; rw [hiso]; simp)
  have hD : isDigit ch = false := by
    cases hiso : isDigit ch
    · rfl
    · exact absurd hh (by unfold handledChar; rw [hiso]; simp)
  have h58 : ¬ch = 58 := by
    intro he; rw [he] at hh; exact absurd hh (by decide)
  have h32 : ¬ch = 32 := by
    intro he; rw [he] at hh; exact absurd hh (by decide)
  have h10 : ¬ch = 10 := by
    intro he; rw [he] at hh; exact absurd hh (by decide)
  have h13 : ¬ch = 13 := by
    intro he; rw [he] at hh; exact absurd hh (by decide)
  have h9 : ¬ch = 9 := by
    intro he; rw [he] at hh; exact absurd hh (by decide)
  have h256 : ¬ch = 256 := by
    intro he; rw [he] at hh; exact absurd hh (by decide)
  have h61 : ¬ch = 61 := by
    intro he; rw [he] at hh; exact absurd hh (by decide)
  have h44 : ¬ch = 44 := by
    intro he; rw [he] at hh; exact absurd hh (by decide)
  have h59 : ¬ch = 59 := by
    intro he; rw [he] at hh; exact absurd hh (by decide)
  have h40 : ¬ch = 40 := by
    intro he; rw [he] at hh; exact absurd hh (by decide)
  have h41 : ¬ch = 41 := by
    intro he; rw [he] at hh; exact absurd hh (by decide)
  have h43 : ¬ch = 43 := by
    intro he; rw [he] at hh; exact absurd hh (by decide)
  have h42 : ¬ch = 42 := by
    intro he; rw [he] at hh; exact absurd hh (by decide)
  have h37 : ¬ch = 37 := by
    intro he; rw [he] at hh; exact absurd hh (by decide)
  have h38 : ¬ch = 38 := by
    intro he; rw [he] at hh; exact absurd hh (by decide)
  have h124 : ¬ch = 124 := by
    intro he; rw [he] at hh; exact absurd hh (by decide)
  have h94 : ¬ch = 94 := by
    intro he; rw [he] at hh; exact absurd hh (by decide)
  have h126 : ¬ch = 126 := by
    intro he; rw [he] at hh; exact absurd hh (by decide)
  have h63 : ¬ch = 63 := by
    intro he; rw [he] at hh; exact absurd hh (by decide)
  have h46 : ¬ch = 46 := by
    intro he; rw [he] at hh; exact absurd hh (by decide)
  have h47 : ¬ch = 47 := by
    intro he; rw [he] at hh; exact absurd hh (by decide)
  have h45 : ¬ch = 45 := by
    intro he; rw [he] at hh; exact absurd hh (by decide)
  have h60 : ¬ch = 60 := by
    intro he; rw [he] at hh; exact absurd hh (by decide)
  have h62 : ¬ch = 62 := by
    intro he; rw [he] at hh; exact absurd hh (by decide)
  have h33 : ¬ch = 33 := by
    intro he; rw [he] at hh; exact absurd hh (by decide)
  have h39 : ¬ch = 39 := by
    intro he; rw [he] at hh; exact absurd hh (by decide)
  have h34 : ¬ch = 34 := by
    intro he; rw [he] at hh; exact absurd hh (by decide)
  have h96 : ¬ch = 96 := by
    intro he; rw [he] at hh; exact absurd hh (by decide)
  have hmod : ch % 256 = ch := Nat.mod_eq_of_lt hb
  have hsb : skipBlank t = t := by
    rw [skipBlank, if_neg (by rw [hc]; simp [h32, h10, h13, h9])]
  simp [Scan, scanDispatch, hf, hc, h0, hsb, EOFCHAR, hmod, hL, hD, h58, h32, h10, h13,
    h9, h256, h61, h44, h59, h40, h41, h43, h42, h37, h38, h124, h94, h126,
    h63, h46, h47, h45, h60, h62, h33, h39, h34, h96]

/-- Witness for the amended C3 at the unrecognized byte 35 (the hash
character): Scan returns the lexical-error token carrying exactly it. -/
theorem claim_c3_unrecognized_byte_witness :
    Scan ⟨[], false, false, 35, 1, [], 0⟩ =
      some (TokKind.lexError, [35], ⟨[], false, false, 256, 2, [], 0⟩) := by
  have h := claim_c3_unrecognized_byte ⟨[], false, false, 35, 1, [], 0⟩ 35
    rfl (by decide) (by decide) (by decide) rfl
  simpa [Tokenizer.next, EOFCHAR] using h

/-- C2 as stated is refuted at the empty input: a fresh tokenizer has
Position 0 and nothing to consume, yet a single Scan call leaves Position
at 2 — the advance routine increments Position even when the read fails at
end of input, so Position advances without any character being consumed. -/
theorem claim_c2_counterexample :
    (NewStringTokenizer []).position = 0 ∧
    (NewStringTokenizer []).input.length = 0 ∧
    (Scan (NewStringTokenizer [])).map
      (fun r => (r.2.2.position, r.2.2.input.length)) = some (2, 0) := by
  refine ⟨rfl, rfl, ?_⟩
  simp [Scan, scanDispatch, NewStringTokenizer, skipBlank, Tokenizer.next, EOFCHAR,
    isLetter, isDigit]

/-- C2 amended: Position never decreases and advances by exactly one per
advance call; while input remains each advance consumes exactly one
character, and at end of input an advance consumes nothing but still
increments Position; hence across any Scan step Position advances by at
least (not exactly) the number of characters consumed. -/
theorem claim_c2_position_accounting :
    (∀ t : Tokenizer, t.next.position = t.position + 1 ∧
      (t.input ≠ [] → t.next.input.length + 1 = t.input.length) ∧
      (t.input = [] → t.next.input = [])) ∧
    (∀ t k v t', Scan t = some (k, v, t') →
      t.position ≤ t'.position ∧ t'.input.length ≤ t.input.length ∧
      t.input.length - t'.input.length ≤ t'.position - t.position) := by
  constructor
  · intro t
    unfold Tokenizer.next
    rcases hi : t.input with _ | ⟨c, rest⟩ <;> simp
  · intro t k v t' h
    have hp := (scan_pres t k v t' h).1
    unfold Pres0 pot at hp
    omega

/-- Witness for the amended C2 at the one-byte input a: Scan consumes the
single byte and Position moves 0 to 2, satisfying all three inequalities. -/
theorem claim_c2_position_accounting_witness :
    (0:Nat) ≤ 2 ∧ (0:Nat) ≤ 1 ∧ (1 - 0 : Nat) ≤ 2 - 0 := by
  have hscan : Scan (NewStringTokenizer [97]) =
      some (TokKind.id, [97], ⟨[], false, false, 256, 2, [], 0⟩) := by
    simp [Scan, scanDispatch, NewStringTokenizer, skipBlank, scanIdentifier, identLoop,
      toLowerBytes, Tokenizer.next, EOFCHAR, isLetter, isDigit, keywords,
      keywordSpellings, bytesOf]
  have h := claim_c2_position_accounting.2 (NewStringTokenizer [97]) _ _ _ hscan
  simpa [NewStringTokenizer] using h

/-- C1: anonymous placeholder numbering.  First clause: the only Scan step
that changes the placeholder counter is the one returning a VALUE_ARG
token whose text is exactly the synthesized name of the incremented
counter — every other step (named bind variables included) leaves the
counter untouched.  Second clause: the step dispatching on the anonymous
placeholder character always does exactly that.  Together: starting from a
fresh tokenizer, the k-th anonymous placeholder consumed yields text :vk,
in left-to-right order, however many named placeholders are interleaved. -/
theorem claim_c1_placeholder_numbering :
    (∀ t k v t', Scan t = some (k, v, t') →
      t'.posVarIndex = t.posVarIndex ∨
        (t'.posVarIndex = t.posVarIndex + 1 ∧ k = TokKind.valueArg ∧
         v = vName (t.posVarIndex + 1))) ∧
    (∀ t : Tokenizer, t.forceEOF = false → t.lastChar = 63 →
      Scan t = some (TokKind.valueArg, vName (t.posVarIndex + 1),
        { t.next with posVarIndex := t.posVarIndex + 1 })) := by
  constructor
  · intro t k v t' h
    exact (scan_pres t k v t' h).2.2
  · intro t hf h63
    have hsb : skipBlank t = t := by
      rw [skipBlank, if_neg (by rw [h63]; simp)]
    simp [Scan, scanDispatch, hf, h63, hsb, EOFCHAR, isLetter, isDigit, next_posVarIndex]

/-- Witness for C1: dispatching on the anonymous placeholder with counter 0
returns VALUE_ARG with the synthesized text :v1 and counter 1. -/
theorem claim_c1_placeholder_numbering_witness :
    Scan ⟨[], false, false, 63, 1, [], 0⟩ =
      some (TokKind.valueArg, vName 1, ⟨[], false, false, 256, 2, [], 1⟩) ∧
    vName 1 = [58, 118, 49] := by
  have h := claim_c1_placeholder_numbering.2 ⟨[], false, false, 63, 1, [], 0⟩
    rfl rfl
  refine ⟨by simpa [Tokenizer.next, EOFCHAR] using h, by decide⟩

/-- C8: keyword case-insensitivity and identifier case-preservation.
The first clause restates the identifier sub-scanner's contract over any
state: the accumulated text is probed lower-cased against the keyword
table, a hit returning that keyword's kind with the lower-cased text and a
miss returning ID with the original-case text.  The remaining clauses
check it concretely: SELECT, Select and select all yield the single
keyword kind with lower-cased text, and MyTable yields ID with its exact
original spelling. -/
theorem claim_c8_keyword_case :
    (∀ t : Tokenizer,
      scanIdentifier t =
        (if toLowerBytes (identLoop t.next [t.lastChar % 256]).1 ∈ keywords then
          (TokKind.keyword (toLowerBytes (identLoop t.next [t.lastChar % 256]).1),
           toLowerBytes (identLoop t.next [t.lastChar % 256]).1,
           (identLoop t.next [t.lastChar % 256]).2)
        else
          (TokKind.id, (identLoop t.next [t.lastChar % 256]).1,
           (identLoop t.next [t.lastChar % 256]).2))) ∧
    ((Scan (NewStringTokenizer (bytesOf "SELECT"))).map (fun r => (r.1, r.2.1)) =
      some (TokKind.keyword (bytesOf "select"), bytesOf "select")) ∧
    ((Scan (NewStringTokenizer (bytesOf "Select"))).map (fun r => (r.1, r.2.1)) =
      some (TokKind.keyword (bytesOf "select"), bytesOf "select")) ∧
    ((Scan (NewStringTokenizer (bytesOf "select"))).map (fun r => (r.1, r.2.1)) =
      some (TokKind.keyword (bytesOf "select"), bytesOf "select")) ∧
    ((Scan (NewStringTokenizer (bytesOf "MyTable"))).map (fun r => (r.1, r.2.1)) =
      some (TokKind.id, bytesOf "MyTable")) := by
  refine ⟨fun t => rfl, ?_, ?_, ?_, ?_⟩ <;>
    simp +decide [Scan, scanDispatch, NewStringTokenizer, skipBlank, scanIdentifier,
      identLoop, toLowerBytes, Tokenizer.next, bytesOf, EOFCHAR, isLetter,
      isDigit]

/-- C7: string escape decoding.  The quoted input a backslash-n b decodes
to a literal newline byte between a and b; a doubled delimiter embeds one
literal delimiter so it-quote-quote-s decodes to it-quote-s; a backslash
before a character the decode table does not escape passes that character
through unchanged (stated for any state and delimiter); and the same
decoding serves backtick-quoted input with the identifier token kind. -/
theorem claim_c7_string_escape_decoding :
    ((Scan (NewStringTokenizer [39, 97, 92, 110, 98, 39])).map
      (fun r => (r.1, r.2.1)) = some (TokKind.strLit, [97, 10, 98])) ∧
    ((Scan (NewStringTokenizer (bytesOf "'it''s'"))).map
      (fun r => (r.1, r.2.1)) = some (TokKind.strLit, bytesOf "it's")) ∧
    (∀ (delim : Nat) (hd : delim ≠ EOFCHAR) (typ : TokKind) (t : Tokenizer)
       (buf : List Nat), t.lastChar = 92 → 92 ≠ delim →
       t.next.lastChar ≠ EOFCHAR →
       SQLDecodeMap (t.next.lastChar % 256) = DONTESCAPE →
       scanString delim hd typ t buf =
         scanString delim hd typ t.next.next (buf ++ [t.next.lastChar % 256])) ∧
    ((Scan (NewStringTokenizer [96, 97, 92, 110, 98, 96])).map
      (fun r => (r.1, r.2.1)) = some (TokKind.id, [97, 10, 98])) := by
  refine ⟨?_, ?_, ?_, ?_⟩
  · simp [Scan, scanDispatch, NewStringTokenizer, skipBlank, scanString, SQLDecodeMap,
      DONTESCAPE, Tokenizer.next, EOFCHAR, isLetter, isDigit]
  · simp [Scan, scanDispatch, NewStringTokenizer, skipBlank, scanString, SQLDecodeMap,
      DONTESCAPE, Tokenizer.next, bytesOf, EOFCHAR, isLetter, isDigit]
  · intro delim hd typ t buf hc hnd hne hdont
    rw [scanString, if_neg (by rw [hc]; exact fun h => hnd h),
      if_pos hc, if_neg hne, if_pos hdont]
  · simp [Scan, scanDispatch, NewStringTokenizer, skipBlank, scanString, SQLDecodeMap,
      DONTESCAPE, Tokenizer.next, EOFCHAR, isLetter, isDigit]

/-- Witness for C7's general pass-through clause at a concrete state: a
backslash before the byte 113 (q, not in the escape table) inside a
single-quoted string passes 113 through unchanged. -/
theorem claim_c7_string_escape_decoding_witness :
    scanString 39 (by decide) TokKind.strLit
      ⟨[113, 39], false, false, 92, 2, [], 0⟩ [] =
    scanString 39 (by decide) TokKind.strLit
      ⟨[], false, false, 39, 4, [], 0⟩ [113] := by
  have h := claim_c7_string_escape_decoding.2.2.1 39 (by decide)
    TokKind.strLit ⟨[113, 39], false, false, 92, 2, [], 0⟩ []
    rfl (by decide) (by simp [Tokenizer.next]; decide) (by decide)
  simpa [Tokenizer.next] using h

theorem isSome_ne_none {α : Type} {o : Option α} (h : o.isSome) : o ≠ none := by
  cases o <;> simp_all

theorem scanMantissa_isSome (base : Nat) (hb : base ≤ 16) (t : Tokenizer)
    (buf : List Nat) : (scanMantissa base t buf).isSome := by
  induction t, buf using scanMantissa.induct base with
  | _ =>
    rw [scanMantissa]
    repeat' split
    all_goals first
      | (simp; done)
      | solve_by_elim
      | (exfalso
         simp_all [EOFCHAR, digitVal]
         try omega
         done)

theorem numExponent_isSome (t : Tokenizer) (buf : List Nat) :
    (numExponent t buf).isSome := by
  unfold numExponent
  dsimp only
  repeat' split
  all_goals first
    | (simp; done)
    | exact scanMantissa_isSome 10 (by omega) _ _
    | (exfalso
       simp_all [EOFCHAR])

theorem numFraction_isSome (t : Tokenizer) (buf : List Nat) :
    (numFraction t buf).isSome := by
  unfold numFraction
  try dsimp only
  repeat' split
  all_goals first
    | (simp; done)
    | exact numExponent_isSome _ _
    | (exfalso
       simp_all [EOFCHAR]
       done)
    | (exfalso
       rename_i heq
       exact isSome_ne_none (scanMantissa_isSome 10 (by omega) _ _) heq)

theorem scanNumber_isSome (sdp : Bool) (t : Tokenizer) :
    (scanNumber sdp t).isSome := by
  unfold scanNumber
  dsimp only
  repeat' split
  all_goals first
    | (simp; done)
    | (exfalso
       simp_all [EOFCHAR]
       done)
    | (exfalso
       rename_i heq
       exact isSome_ne_none (scanMantissa_isSome 10 (by omega) _ _) heq)
    | (exfalso
       rename_i heq
       exact isSome_ne_none (scanMantissa_isSome 16 (by omega) _ _) heq)
    | (exfalso
       rename_i heq
       exact isSome_ne_none (scanMantissa_isSome 8 (by omega) _ _) heq)
    | (exfalso
       rename_i heq
       exact isSome_ne_none (numFraction_isSome _ _) heq)
    | (exfalso
       rename_i heq
       exact isSome_ne_none (numExponent_isSome _ _) heq)

theorem commentLoop1_isSome (t : Tokenizer) (buf : List Nat) :
    (commentLoop1 t buf).isSome := by
  induction t, buf using commentLoop1.induct with
  | _ =>
    rw [commentLoop1]
    repeat' split
    all_goals first
      | (simp; done)
      | solve_by_elim
      | simp_all [EOFCHAR]

theorem commentLoop2_isSome (t : Tokenizer) (buf : List Nat) :
    (commentLoop2 t buf).isSome := by
  induction t, buf using commentLoop2.induct with
  | _ =>
    rw [commentLoop2]
    dsimp only
    repeat' split
    all_goals first
      | (simp; done)
      | solve_by_elim
      | simp_all [EOFCHAR]

theorem scanDispatch_isSome (s : Tokenizer) : (scanDispatch s).isSome := by
  unfold scanDispatch
  dsimp only
  by_cases h1 : isLetter s.lastChar = true
  · rw [if_pos h1]; rfl
  rw [if_neg h1]
  by_cases h2 : isDigit s.lastChar = true
  · rw [if_pos h2]; exact scanNumber_isSome _ _
  rw [if_neg h2]
  by_cases h3 : s.lastChar = 58
  · rw [if_pos h3]; rfl
  rw [if_neg h3]
  by_cases h4 : s.lastChar = EOFCHAR
  · rw [if_pos h4]; rfl
  rw [if_neg h4]
  by_cases h5 : s.lastChar = 61 ∨ s.lastChar = 44 ∨ s.lastChar = 59 ∨
      s.lastChar = 40 ∨ s.lastChar = 41 ∨ s.lastChar = 43 ∨ s.lastChar = 42 ∨
      s.lastChar = 37 ∨ s.lastChar = 38 ∨ s.lastChar = 124 ∨
      s.lastChar = 94 ∨ s.lastChar = 126
  · rw [if_pos h5]; rfl
  rw [if_neg h5]
  by_cases h6 : s.lastChar = 63
  · rw [if_pos h6]; rfl
  rw [if_neg h6]
  by_cases h7 : s.lastChar = 46
  · rw [if_pos h7]
    by_cases h7b : isDigit s.next.lastChar = true
    · rw [if_pos h7b]; exact scanNumber_isSome _ _
    · rw [if_neg h7b]; rfl
  rw [if_neg h7]
  by_cases h8 : s.lastChar = 47
  · rw [if_pos h8]
    by_cases h8b : s.next.lastChar = 47
    · rw [if_pos h8b]
      unfold scanCommentType1
      exact commentLoop1_isSome _ _
    rw [if_neg h8b]
    by_cases h8c : s.next.lastChar = 42
    · rw [if_pos h8c]
      unfold scanCommentType2
      exact commentLoop2_isSome _ _
    · rw [if_neg h8c]; rfl
  rw [if_neg h8]
  by_cases h9 : s.lastChar = 45
  · rw [if_pos h9]
    by_cases h9b : s.next.lastChar = 45
    · rw [if_pos h9b]
      unfold scanCommentType1
      exact commentLoop1_isSome _ _
    · rw [if_neg h9b]; rfl
  rw [if_neg h9]
  by_cases h10 : s.lastChar = 60
  · rw [if_pos h10]
    by_cases h10b : s.next.lastChar = 62
    · rw [if_pos h10b]; rfl
    rw [if_neg h10b]
    by_cases h10c : s.next.lastChar = 61
    · rw [if_pos h10c]
      by_cases h10d : s.next.next.lastChar = 62
      · rw [if_pos h10d]; rfl
      · rw [if_neg h10d]; rfl
    · rw [if_neg h10c]; rfl
  rw [if_neg h10]
  by_cases h11 : s.lastChar = 62
  · rw [if_pos h11]
    by_cases h11b : s.next.lastChar = 61
    · rw [if_pos h11b]; rfl
    · rw [if_neg h11b]; rfl
  rw [if_neg h11]
  by_cases h12 : s.lastChar = 33
  · rw [if_pos h12]
    by_cases h12b : s.next.lastChar = 61
    · rw [if_pos h12b]; rfl
    · rw [if_neg h12b]; rfl
  rw [if_neg h12]
  by_cases h13 : s.lastChar = 39
  · rw [if_pos h13]; rfl
  rw [if_neg h13]
  by_cases h14 : s.lastChar = 34
  · rw [if_pos h14]; rfl
  rw [if_neg h14]
  by_cases h15 : s.lastChar = 96
  · rw [if_pos h15]; rfl
  · rw [if_neg h15]; rfl

theorem scan_isSome (t : Tokenizer) : (Scan t).isSome := by
  unfold Scan
  split
  · rfl
  · exact scanDispatch_isSome _

theorem lexLoop_isSome (k : TokKind) (v : List Nat) (t : Tokenizer) :
    (lexLoop k v t).isSome := by
  induction k, v, t using lexLoop.induct with
  | _ =>
    rw [lexLoop]
    repeat' split
    all_goals first
      | rfl
      | solve_by_elim
      | (exfalso
         rename_i heq
         exact isSome_ne_none (scan_isSome _) heq)
      | (simp_all; done)

/-- C6: the advance-past-end-of-input panic of the buffered advance (Next)
is unreachable.  The panic is modelled as the `none` result threaded
through every sub-scanner that uses the buffered advance; Scan — and hence
the pull interface Lex — returns `some` on every state whatsoever, so no
reachable (or even unreachable) sub-scanner path invokes the advance with
the EOF sentinel as lookahead. -/
theorem claim_c6_eof_panic_unreachable :
    (∀ t : Tokenizer, (Scan t).isSome) ∧
    (∀ t : Tokenizer, (Lex t).isSome) := by
  refine ⟨scan_isSome, fun t => ?_⟩
  unfold Lex
  split
  · exfalso
    rename_i heq
    have h2 := scan_isSome t
    rw [heq] at h2
    simp at h2
  · rename_i k v t1 heq
    split
    · exfalso
      rename_i heq2
      have h2 := lexLoop_isSome k v t1
      rw [heq2] at h2
      simp at h2
    · simp

end Saashard
